import Mathlib

/-!
Verification of the core of the `hft-core` matching engine: a shallow
embedding of the order data model (`order.hpp`), the per-symbol order book
(`order_book.cpp`), the shard dispatch and matching loops (`shard.cpp`),
the SPSC ring buffer (`ring_buffer.hpp`), and the constructor-time
capacity check of `matching_engine.cpp`.

Modelling conventions:
  * C++ `std::map<long, std::list<Order>>` sides become sorted association
    lists of price levels.  Asks are kept ascending by price (the map's
    iteration order, best ask first); bids are kept descending by price
    (the map's reverse iteration order, best bid first), so in both cases
    the best level is the head.  Each level is the FIFO list of resting
    orders at that price.
  * `int` quantities and `int64_t` prices/notionals are modelled as `Int`;
    `uint64_t` order/trade ids and `uint32_t` symbol ids as `Nat`.  The
    ring buffer's `uint64_t` head/tail counters are stored reduced modulo
    `2 ^ 64`, exactly like the hardware registers.
  * The worker loop body of `Shard::runLoop` for one dequeued `Order`
    against one symbol's book becomes the pure step `shardStep`; trades
    and events are returned as the lists handed to the outbound ring
    writers, in emission order.
-/

set_option maxRecDepth 10000

namespace HftCore

/-! ## Order data model (`order.hpp`) -/

inductive Op : Type
  | New
  | Cancel
  | Replace
deriving DecidableEq

inductive Side : Type
  | BUY
  | SELL
deriving DecidableEq

inductive OrdType : Type
  | LIMIT
  | MARKET
deriving DecidableEq

inductive TIF : Type
  | Day
  | IOC
  | FOK
deriving DecidableEq

structure Order where
  id : Nat := 0
  symbolId : Nat := 0
  op : Op := Op.New
  side : Side := Side.BUY
  type : OrdType := OrdType.LIMIT
  tif : TIF := TIF.Day
  postOnly : Bool := false
  priceCents : Int := 0
  qty : Int := 0
  targetId : Nat := 0
  newPriceCents : Int := 0
  newQty : Int := 0
deriving DecidableEq

/-! ## Trade and Event records (`trade.hpp`, `events.hpp`) -/

structure Trade where
  tradeId : Nat := 0
  symbolId : Nat := 0
  priceCents : Int := 0
  qty : Int := 0
  buyOrderId : Nat := 0
  sellOrderId : Nat := 0
deriving DecidableEq

inductive EventType : Type
  | AckNew
  | AckCancel
  | AckReplace
  | Reject
  | Exec
deriving DecidableEq

inductive Liquidity : Type
  | None
  | Maker
  | Taker
deriving DecidableEq

structure Event where
  type : EventType := EventType.AckNew
  orderId : Nat := 0
  relatedId : Nat := 0
  symbolId : Nat := 0
  side : Side := Side.BUY
  priceCents : Int := 0
  qty : Int := 0
  remaining : Int := 0
  liquidity : Liquidity := Liquidity.None
deriving DecidableEq

/-! ## Trading status (`session.hpp`) -/

inductive TradingStatus : Type
  | Open
  | Halted
  | Closed
deriving DecidableEq

/-! ## Order book (`order_book.cpp`)

A price level is the FIFO `std::list<Order>` at one price.  `asks` is the
`std::map` in iteration (ascending) order; `bids` is the map in reverse
(descending) order, so the best level of each side is at the head. -/

abbrev Level := List Order

structure OrderBook where
  bids : List (Int × Level) := []
  asks : List (Int × Level) := []
deriving DecidableEq

/-- Insert an order into a side kept in ascending price order, appending to
the level at its price (FIFO within a level), as `asks[price].emplace_back`
does for the ascending `std::map`. -/
def insertAsc (o : Order) : List (Int × Level) → List (Int × Level)
  | [] => [(o.priceCents, [o])]
  | (p, lvl) :: rest =>
    if p < o.priceCents then (p, lvl) :: insertAsc o rest
    else if p = o.priceCents then (p, lvl ++ [o]) :: rest
    else (o.priceCents, [o]) :: (p, lvl) :: rest

/-- Insert an order into a side kept in descending price order, appending to
the level at its price, as `bids[price].emplace_back` does viewed through
the reverse iteration order of the `std::map`. -/
def insertDesc (o : Order) : List (Int × Level) → List (Int × Level)
  | [] => [(o.priceCents, [o])]
  | (p, lvl) :: rest =>
    if p > o.priceCents then (p, lvl) :: insertDesc o rest
    else if p = o.priceCents then (p, lvl ++ [o]) :: rest
    else (o.priceCents, [o]) :: (p, lvl) :: rest

/-- Embeds `OrderBook::addBid`. -/
def addBid (b : OrderBook) (bid : Order) : OrderBook :=
  { b with bids := insertDesc bid b.bids }

/-- Embeds `OrderBook::addAsk`. -/
def addAsk (b : OrderBook) (ask : Order) : OrderBook :=
  { b with asks := insertAsc ask b.asks }

/-- Embeds `OrderBook::bestBid`: `-1` when the bid side is empty, otherwise the
price of `bids.rbegin()`, i.e. the maximum bid price. -/
def bestBid (b : OrderBook) : Int :=
  match b.bids with
  | [] => -1
  | (p, _) :: _ => p

/-- Embeds `OrderBook::bestAsk`: `-1` when the ask side is empty, otherwise the
price of `asks.begin()`, i.e. the minimum ask price. -/
def bestAsk (b : OrderBook) : Int :=
  match b.asks with
  | [] => -1
  | (p, _) :: _ => p

/-- Embeds `OrderBook::availableAskUpTo`: walk levels in ascending price order
while the level price is at most the bound, summing resting quantities. -/
def availAsc (maxPriceCents : Int) : List (Int × Level) → Int
  | [] => 0
  | (p, lvl) :: rest =>
    if p ≤ maxPriceCents then (lvl.map Order.qty).sum + availAsc maxPriceCents rest
    else 0

/-- Embeds `OrderBook::availableBidDownTo`: walk levels in descending price order
while the level price is at least the bound, summing resting quantities. -/
def availDesc (minPriceCents : Int) : List (Int × Level) → Int
  | [] => 0
  | (p, lvl) :: rest =>
    if p ≥ minPriceCents then (lvl.map Order.qty).sum + availDesc minPriceCents rest
    else 0

def availableAskUpTo (b : OrderBook) (maxPriceCents : Int) : Int :=
  availAsc maxPriceCents b.asks

def availableBidDownTo (b : OrderBook) (minPriceCents : Int) : Int :=
  availDesc minPriceCents b.bids

/-- Remove the first order with the given id from a FIFO level; `none` if
no order in the level has that id. -/
def removeFirst (orderId : Nat) : Level → Option Level
  | [] => none
  | o :: rest =>
    if o.id = orderId then some rest
    else (removeFirst orderId rest).map (o :: ·)

/-- Remove the (unique, via the `idToLoc` locator) resting order with the
given id from one side, erasing its price level if it becomes empty, as
`OrderBook::cancelById` does through the locator. -/
def removeByIdSide (orderId : Nat) : List (Int × Level) → Option (List (Int × Level))
  | [] => none
  | (p, lvl) :: rest =>
    match removeFirst orderId lvl with
    | some lvl2 => some (if lvl2.isEmpty then rest else (p, lvl2) :: rest)
    | none => (removeByIdSide orderId rest).map ((p, lvl) :: ·)

/-- Embeds `OrderBook::cancelById`: locate the order by id on either side, erase
it in place, drop the level if it emptied; report whether it was found. -/
def cancelById (b : OrderBook) (orderId : Nat) : Bool × OrderBook :=
  match removeByIdSide orderId b.bids with
  | some bids2 => (true, { b with bids := bids2 })
  | none =>
    match removeByIdSide orderId b.asks with
    | some asks2 => (true, { b with asks := asks2 })
    | none => (false, b)

/-- Embeds `OrderBook::replaceById`: cancel the old id; if it was resting, insert
the replacement on the replacement's own side. -/
def replaceById (b : OrderBook) (oldId : Nat) (replacement : Order) : Bool × OrderBook :=
  match cancelById b oldId with
  | (false, _) => (false, b)
  | (true, b2) =>
    if replacement.side = Side.BUY then (true, addBid b2 replacement)
    else (true, addAsk b2 replacement)

/-- Total number of resting orders on one side; the termination measure of
the matching loops. -/
def sideSize : List (Int × Level) → Nat
  | [] => 0
  | (_, lvl) :: rest => lvl.length + sideSize rest

/-- All resting order ids on one side, best level first. -/
def sideIds : List (Int × Level) → List Nat
  | [] => []
  | (_, lvl) :: rest => lvl.map Order.id ++ sideIds rest

def bookIds (b : OrderBook) : List Nat :=
  sideIds b.bids ++ sideIds b.asks

/-! ## Shard (`shard.cpp`, `shard.hpp`) -/

/-- Market order protections of `shard.hpp` (`marketMaxLevels_`,
`marketMaxQty_`, `marketMaxNotional_`). -/
def marketMaxLevels : Int := 128

def marketMaxQty : Int := 1000000

def marketMaxNotional : Int := 9000000000000000

/-- Embeds `Shard::emitReject`. -/
def rejectEvent (o : Order) : Event :=
  { type := EventType.Reject, orderId := o.id, symbolId := o.symbolId,
    side := o.side, priceCents := o.priceCents, qty := o.qty }

/-- Embeds `Shard::emitExec`. -/
def execEvent (side : Side) (aggressorId restingId symbolId : Nat)
    (priceCents qty remaining : Int) : Event :=
  { type := EventType.Exec, orderId := aggressorId, relatedId := restingId,
    symbolId := symbolId, side := side, priceCents := priceCents, qty := qty,
    remaining := remaining, liquidity := Liquidity.Taker }

/-- Result of one matching loop: the trades and exec events emitted (in
order), the aggressor's final `remaining`, the trade id generator, and the
swept side of the book. -/
structure LoopOut where
  trades : List Trade
  events : List Event
  remaining : Int
  gen : Nat
  levels : List (Int × Level)
deriving DecidableEq

/-- The `while` loop of `Shard::matchLimitBuy` over the ask side.  Each
iteration takes `min(remaining, bestAsk.qty)` from the front order of the
best level, emits a `Trade` and an `Exec` event, and pops the resting
order when its quantity reaches zero.  When the resting order survives
(`askQty2 > 0`), the matched quantity was all of `remaining`, so the loop
is about to exit with `remaining = 0` and we return directly.  An empty
best level would make `peekBestAskMutable` return `nullptr` and stop the
loop; the book invariant keeps levels nonempty so this is unreachable in
runs of the shard. -/
def matchBuyLoop (ord : Order) (remaining : Int) (gen : Nat) :
    (asks : List (Int × Level)) → LoopOut
  | [] => ⟨[], [], remaining, gen, []⟩
  | (p, []) :: rest => ⟨[], [], remaining, gen, (p, []) :: rest⟩
  | (p, a :: lvlTail) :: rest =>
    if remaining > 0 ∧ p ≤ ord.priceCents then
      if a.qty - min remaining a.qty ≤ 0 then
        let out := matchBuyLoop ord (remaining - min remaining a.qty) (gen + 1)
          (if lvlTail.isEmpty then rest else (p, lvlTail) :: rest)
        ⟨{ tradeId := gen + 1, symbolId := ord.symbolId, priceCents := p,
             qty := min remaining a.qty, buyOrderId := ord.id, sellOrderId := a.id } :: out.trades,
          execEvent Side.BUY ord.id a.id ord.symbolId p (min remaining a.qty)
            (remaining - min remaining a.qty) :: out.events,
          out.remaining, out.gen, out.levels⟩
      else
        ⟨[{ tradeId := gen + 1, symbolId := ord.symbolId, priceCents := p,
             qty := min remaining a.qty, buyOrderId := ord.id, sellOrderId := a.id }],
          [execEvent Side.BUY ord.id a.id ord.symbolId p (min remaining a.qty)
            (remaining - min remaining a.qty)],
          remaining - min remaining a.qty, gen + 1,
          (p, { a with qty := a.qty - min remaining a.qty } :: lvlTail) :: rest⟩
    else ⟨[], [], remaining, gen, (p, a :: lvlTail) :: rest⟩
termination_by asks => sideSize asks
decreasing_by
  by_cases h : lvlTail.isEmpty <;> simp [h, sideSize]

/-- The `while` loop of `Shard::matchLimitSell` over the bid side (best
bid first, i.e. descending prices). -/
def matchSellLoop (ord : Order) (remaining : Int) (gen : Nat) :
    (bids : List (Int × Level)) → LoopOut
  | [] => ⟨[], [], remaining, gen, []⟩
  | (p, []) :: rest => ⟨[], [], remaining, gen, (p, []) :: rest⟩
  | (p, a :: lvlTail) :: rest =>
    if remaining > 0 ∧ p ≥ ord.priceCents then
      if a.qty - min remaining a.qty ≤ 0 then
        let out := matchSellLoop ord (remaining - min remaining a.qty) (gen + 1)
          (if lvlTail.isEmpty then rest else (p, lvlTail) :: rest)
        ⟨{ tradeId := gen + 1, symbolId := ord.symbolId, priceCents := p,
             qty := min remaining a.qty, buyOrderId := a.id, sellOrderId := ord.id } :: out.trades,
          execEvent Side.SELL ord.id a.id ord.symbolId p (min remaining a.qty)
            (remaining - min remaining a.qty) :: out.events,
          out.remaining, out.gen, out.levels⟩
      else
        ⟨[{ tradeId := gen + 1, symbolId := ord.symbolId, priceCents := p,
             qty := min remaining a.qty, buyOrderId := a.id, sellOrderId := ord.id }],
          [execEvent Side.SELL ord.id a.id ord.symbolId p (min remaining a.qty)
            (remaining - min remaining a.qty)],
          remaining - min remaining a.qty, gen + 1,
          (p, { a with qty := a.qty - min remaining a.qty } :: lvlTail) :: rest⟩
    else ⟨[], [], remaining, gen, (p, a :: lvlTail) :: rest⟩
termination_by bids => sideSize bids
decreasing_by
  by_cases h : lvlTail.isEmpty <;> simp [h, sideSize]

/-- The `while` loop of `Shard::matchMarketBuy`: no price guard; `levels`
counts pops and stops the sweep at `marketMaxLevels_`; the running
notional breaks the loop before applying a match that would push it past
`marketMaxNotional_`. -/
def marketBuyLoop (ord : Order) (remaining : Int) (gen : Nat)
    (levels notional : Int) : (asks : List (Int × Level)) → LoopOut
  | [] => ⟨[], [], remaining, gen, []⟩
  | (p, []) :: rest => ⟨[], [], remaining, gen, (p, []) :: rest⟩
  | (p, a :: lvlTail) :: rest =>
    if remaining > 0 ∧ levels < marketMaxLevels then
      if notional + min remaining a.qty * p > marketMaxNotional then
        ⟨[], [], remaining, gen, (p, a :: lvlTail) :: rest⟩
      else if a.qty - min remaining a.qty ≤ 0 then
        let out := marketBuyLoop ord (remaining - min remaining a.qty) (gen + 1) (levels + 1)
          (notional + min remaining a.qty * p)
          (if lvlTail.isEmpty then rest else (p, lvlTail) :: rest)
        ⟨{ tradeId := gen + 1, symbolId := ord.symbolId, priceCents := p,
             qty := min remaining a.qty, buyOrderId := ord.id, sellOrderId := a.id } :: out.trades,
          execEvent Side.BUY ord.id a.id ord.symbolId p (min remaining a.qty)
            (remaining - min remaining a.qty) :: out.events,
          out.remaining, out.gen, out.levels⟩
      else
        ⟨[{ tradeId := gen + 1, symbolId := ord.symbolId, priceCents := p,
             qty := min remaining a.qty, buyOrderId := ord.id, sellOrderId := a.id }],
          [execEvent Side.BUY ord.id a.id ord.symbolId p (min remaining a.qty)
            (remaining - min remaining a.qty)],
          remaining - min remaining a.qty, gen + 1,
          (p, { a with qty := a.qty - min remaining a.qty } :: lvlTail) :: rest⟩
    else ⟨[], [], remaining, gen, (p, a :: lvlTail) :: rest⟩
termination_by asks => sideSize asks
decreasing_by
  by_cases h : lvlTail.isEmpty <;> simp [h, sideSize]

/-- The `while` loop of `Shard::matchMarketSell`. -/
def marketSellLoop (ord : Order) (remaining : Int) (gen : Nat)
    (levels notional : Int) : (bids : List (Int × Level)) → LoopOut
  | [] => ⟨[], [], remaining, gen, []⟩
  | (p, []) :: rest => ⟨[], [], remaining, gen, (p, []) :: rest⟩
  | (p, a :: lvlTail) :: rest =>
    if remaining > 0 ∧ levels < marketMaxLevels then
      if notional + min remaining a.qty * p > marketMaxNotional then
        ⟨[], [], remaining, gen, (p, a :: lvlTail) :: rest⟩
      else if a.qty - min remaining a.qty ≤ 0 then
        let out := marketSellLoop ord (remaining - min remaining a.qty) (gen + 1) (levels + 1)
          (notional + min remaining a.qty * p)
          (if lvlTail.isEmpty then rest else (p, lvlTail) :: rest)
        ⟨{ tradeId := gen + 1, symbolId := ord.symbolId, priceCents := p,
             qty := min remaining a.qty, buyOrderId := a.id, sellOrderId := ord.id } :: out.trades,
          execEvent Side.SELL ord.id a.id ord.symbolId p (min remaining a.qty)
            (remaining - min remaining a.qty) :: out.events,
          out.remaining, out.gen, out.levels⟩
      else
        ⟨[{ tradeId := gen + 1, symbolId := ord.symbolId, priceCents := p,
             qty := min remaining a.qty, buyOrderId := a.id, sellOrderId := ord.id }],
          [execEvent Side.SELL ord.id a.id ord.symbolId p (min remaining a.qty)
            (remaining - min remaining a.qty)],
          remaining - min remaining a.qty, gen + 1,
          (p, { a with qty := a.qty - min remaining a.qty } :: lvlTail) :: rest⟩
    else ⟨[], [], remaining, gen, (p, a :: lvlTail) :: rest⟩
termination_by bids => sideSize bids
decreasing_by
  by_cases h : lvlTail.isEmpty <;> simp [h, sideSize]

/-- Embeds `Shard::shouldRejectFOK`. -/
def shouldRejectFOK (ord : Order) (b : OrderBook) : Bool :=
  if ord.tif ≠ TIF.FOK then false
  else if ord.side = Side.BUY then availableAskUpTo b ord.priceCents < ord.qty
  else availableBidDownTo b ord.priceCents < ord.qty

/-- Embeds `Shard::handleIOCPost`: after a limit match, cancel whatever rested
under the aggressor's id if the order was IOC. -/
def handleIOCPost (ord : Order) (b : OrderBook) : OrderBook :=
  if ord.tif = TIF.IOC then (cancelById b ord.id).2 else b

/-- Per-symbol shard state visible to the dispatch of one order: the book
(`books_[symbolId]`), the symbol's trading status (`status_`, default
`Open`), the local trade id generator, and the processed counter. -/
structure ShardState where
  book : OrderBook := {}
  status : TradingStatus := TradingStatus.Open
  tradeIdGen : Nat := 0
  processed : Nat := 0
deriving DecidableEq

/-- Embeds `Shard::matchLimitBuy` including the residual post: match against the
ask side, then rest any positive residual on the bid side at the order's
price. -/
def matchLimitBuy (st : ShardState) (ord : Order) : ShardState × List Trade × List Event :=
  let out := matchBuyLoop ord ord.qty st.tradeIdGen st.book.asks
  let b2 : OrderBook := { st.book with asks := out.levels }
  let b3 := if out.remaining > 0 then addBid b2 { ord with qty := out.remaining } else b2
  ({ st with book := b3, tradeIdGen := out.gen }, out.trades, out.events)

/-- Embeds `Shard::matchLimitSell` including the residual post. -/
def matchLimitSell (st : ShardState) (ord : Order) : ShardState × List Trade × List Event :=
  let out := matchSellLoop ord ord.qty st.tradeIdGen st.book.bids
  let b2 : OrderBook := { st.book with bids := out.levels }
  let b3 := if out.remaining > 0 then addAsk b2 { ord with qty := out.remaining } else b2
  ({ st with book := b3, tradeIdGen := out.gen }, out.trades, out.events)

/-- Embeds `Shard::processLimit`: FOK feasibility gate, then the side's limit
matcher, then the IOC residual cancel. -/
def processLimit (st : ShardState) (ord : Order) : ShardState × List Trade × List Event :=
  if shouldRejectFOK ord st.book then (st, [], [rejectEvent ord])
  else
    let (st2, trades, events) :=
      if ord.side = Side.BUY then matchLimitBuy st ord else matchLimitSell st ord
    ({ st2 with book := handleIOCPost ord st2.book }, trades, events)

/-- Embeds `Shard::processMarket`: the side's market matcher; the swept quantity
is capped at `marketMaxQty_` up front and residual is discarded (market
orders never rest). -/
def processMarket (st : ShardState) (ord : Order) : ShardState × List Trade × List Event :=
  if ord.side = Side.BUY then
    let out := marketBuyLoop ord (min ord.qty marketMaxQty) st.tradeIdGen 0 0 st.book.asks
    ({ st with book := { st.book with asks := out.levels }, tradeIdGen := out.gen },
      out.trades, out.events)
  else
    let out := marketSellLoop ord (min ord.qty marketMaxQty) st.tradeIdGen 0 0 st.book.bids
    ({ st with book := { st.book with bids := out.levels }, tradeIdGen := out.gen },
      out.trades, out.events)

/-- Embeds `Shard::handleCancel`: silent cancel by `targetId`. -/
def handleCancel (b : OrderBook) (cancel : Order) : OrderBook :=
  (cancelById b cancel.targetId).2

/-- Embeds `Shard::handleReplace`: copy the incoming Replace record, override
quantity when `newQty > 0` and price when `newPriceCents` is nonzero, set
the operation to `New`, and replace in the book by `targetId`. -/
def handleReplace (b : OrderBook) (repl : Order) : OrderBook :=
  let newOrd : Order :=
    { repl with
      qty := if repl.newQty > 0 then repl.newQty else repl.qty,
      priceCents := if repl.newPriceCents ≠ 0 then repl.newPriceCents else repl.priceCents,
      op := Op.New }
  (replaceById b repl.targetId newOrd).2

/-- The body of `Shard::runLoop` for one dequeued order: the session gate
(Cancel proceeds during Halted/Closed, everything else is rejected), then
the operation dispatch, then the processed-counter increment.  The emitted
trades and events are returned in emission order. -/
def shardStep (st : ShardState) (ev : Order) : ShardState × List Trade × List Event :=
  if st.status ≠ TradingStatus.Open then
    if ev.op = Op.Cancel then
      ({ st with book := handleCancel st.book ev, processed := st.processed + 1 }, [], [])
    else
      ({ st with processed := st.processed + 1 }, [], [rejectEvent ev])
  else
    let (st2, trades, events) :=
      if ev.op = Op.Cancel then ({ st with book := handleCancel st.book ev }, [], [])
      else if ev.op = Op.Replace then ({ st with book := handleReplace st.book ev }, [], [])
      else if ev.type = OrdType.LIMIT then processLimit st ev
      else processMarket st ev
    ({ st2 with processed := st2.processed + 1 }, trades, events)

/-- Apply a finite sequence of orders through the shard dispatch. -/
def shardRun (st : ShardState) : List Order → ShardState
  | [] => st
  | o :: rest => shardRun (shardStep st o).1 rest

/-! ## SPSC ring buffer (`ring_buffer.hpp`)

`head_` and `tail_` are `uint64_t`; the model stores them reduced modulo
`2 ^ 64`, exactly the machine representation.  The backing `std::vector`
is a list of `capacity` default-initialised slots. -/

/-- The modulus `2 ^ 64` of the `uint64_t` counters. -/
def word64 : Nat := 2 ^ 64

inductive ProducerMode : Type
  | Single
  | Multi
deriving DecidableEq

structure RingBuffer (α : Type) where
  buffer : List α
  capacity : Nat
  mask : Nat
  mode : ProducerMode
  head : Nat
  tail : Nat
deriving DecidableEq

/-- The `RingBuffer` constructor: any capacity is accepted; the mask is
`capacity − 1` when the capacity is nonzero and `0` otherwise; the buffer
is resized to `capacity` default slots; both counters start at zero. -/
def RingBuffer.init (α : Type) [Inhabited α] (capacityPowerOfTwo : Nat)
    (mode : ProducerMode) : RingBuffer α :=
  { buffer := List.replicate capacityPowerOfTwo default
    capacity := capacityPowerOfTwo
    mask := if capacityPowerOfTwo ≠ 0 then capacityPowerOfTwo - 1 else 0
    mode := mode
    head := 0
    tail := 0 }

/-- Embeds `RingBuffer::tryEnqueue`: fail for a non-`Single` producer mode; fail
when the `uint64_t` difference `head − tail` has reached the capacity;
otherwise write the slot at `head & mask` and publish `head + 1`. -/
def RingBuffer.tryEnqueue {α : Type} (r : RingBuffer α) (item : α) : Option (RingBuffer α) :=
  if r.mode ≠ ProducerMode.Single then none
  else if (r.head + word64 - r.tail) % word64 ≥ r.capacity then none
  else
    let idx := r.head &&& r.mask
    some { r with buffer := r.buffer.set idx item, head := (r.head + 1) % word64 }

/-- Embeds `RingBuffer::tryDequeue`: fail when `head == tail`; otherwise read the
slot at `tail & mask` and publish `tail + 1`. -/
def RingBuffer.tryDequeue {α : Type} [Inhabited α] (r : RingBuffer α) :
    Option (α × RingBuffer α) :=
  if r.head = r.tail then none
  else
    let idx := r.tail &&& r.mask
    some (r.buffer.getD idx default, { r with tail := (r.tail + 1) % word64 })

/-- One client interaction with a ring: offer an item or poll for one. -/
inductive RingOp (α : Type) : Type
  | enq (x : α)
  | deq
deriving DecidableEq

/-- Observable outcome of one interaction. -/
inductive RingOut (α : Type) : Type
  | enqOk
  | enqFail
  | deqOk (x : α)
  | deqFail
deriving DecidableEq

/-- Run a sequence of enqueue/dequeue calls against a ring, recording each
call's outcome. -/
def ringRun {α : Type} [Inhabited α] (r : RingBuffer α) :
    List (RingOp α) → RingBuffer α × List (RingOut α)
  | [] => (r, [])
  | RingOp.enq x :: ops =>
    match r.tryEnqueue x with
    | some r2 =>
      let (rf, outs) := ringRun r2 ops
      (rf, RingOut.enqOk :: outs)
    | none =>
      let (rf, outs) := ringRun r ops
      (rf, RingOut.enqFail :: outs)
  | RingOp.deq :: ops =>
    match r.tryDequeue with
    | some (x, r2) =>
      let (rf, outs) := ringRun r2 ops
      (rf, RingOut.deqOk x :: outs)
    | none =>
      let (rf, outs) := ringRun r ops
      (rf, RingOut.deqFail :: outs)

/-- The specification the ring is compared against: a bounded FIFO queue
given directly as a list, enqueue appending at the back, dequeue taking
the front. -/
def queueRun {α : Type} (cap : Nat) (q : List α) :
    List (RingOp α) → List α × List (RingOut α)
  | [] => (q, [])
  | RingOp.enq x :: ops =>
    if q.length ≥ cap then
      let (qf, outs) := queueRun cap q ops
      (qf, RingOut.enqFail :: outs)
    else
      let (qf, outs) := queueRun cap (q ++ [x]) ops
      (qf, RingOut.enqOk :: outs)
  | RingOp.deq :: ops =>
    match q with
    | [] =>
      let (qf, outs) := queueRun cap [] ops
      (qf, RingOut.deqFail :: outs)
    | x :: q2 =>
      let (qf, outs) := queueRun cap q2 ops
      (qf, RingOut.deqOk x :: outs)

/-- The items whose enqueue calls were accepted, in submission order. -/
def enqValues {α : Type} : List (RingOp α) → List (RingOut α) → List α
  | [], _ => []
  | _ :: _, [] => []
  | RingOp.enq x :: ops, RingOut.enqOk :: outs => x :: enqValues ops outs
  | RingOp.enq _ :: ops, RingOut.enqFail :: outs => enqValues ops outs
  | RingOp.enq _ :: ops, RingOut.deqOk _ :: outs => enqValues ops outs
  | RingOp.enq _ :: ops, RingOut.deqFail :: outs => enqValues ops outs
  | RingOp.deq :: ops, _ :: outs => enqValues ops outs

/-- The items returned by successful dequeue calls, in return order. -/
def deqValues {α : Type} : List (RingOut α) → List α
  | [] => []
  | RingOut.deqOk x :: outs => x :: deqValues outs
  | RingOut.deqFail :: outs => deqValues outs
  | RingOut.enqOk :: outs => deqValues outs
  | RingOut.enqFail :: outs => deqValues outs

/-! ## Book well-formedness and the crossed-book predicate

These predicates state the data-structure invariants the C++ book relies
on: map keys are strictly sorted (here: bids descending, asks ascending,
best level first) and a price level is present iff its queue is nonempty. -/

def sidePrices (s : List (Int × Level)) : List Int :=
  s.map Prod.fst

def NoEmptyLevels (s : List (Int × Level)) : Prop :=
  ∀ pl ∈ s, pl.2 ≠ ([] : Level)

structure BookWF (b : OrderBook) : Prop where
  bidsSorted : List.Sorted (· > ·) (sidePrices b.bids)
  asksSorted : List.Sorted (· < ·) (sidePrices b.asks)
  bidsNE : NoEmptyLevels b.bids
  asksNE : NoEmptyLevels b.asks

/-- Every resting bid is strictly below every resting ask. -/
def Uncrossed (b : OrderBook) : Prop :=
  ∀ p ∈ sidePrices b.bids, ∀ q ∈ sidePrices b.asks, p < q

/-! ## Refinement invariant for the ring (`ring_buffer.hpp`) -/

/-- Coupling between a single-producer ring of capacity `2 ^ k` and the
abstract bounded FIFO queue `q` it implements: the stored `uint64_t`
counters differ by the queue length, and slot `(tail + i) mod 2 ^ k`
holds the `i`-th queued element. -/
def RingInv {α : Type} [Inhabited α] (k : Nat) (r : RingBuffer α) (q : List α) : Prop :=
  r.capacity = 2 ^ k ∧ k ≤ 63 ∧ r.mask = 2 ^ k - 1 ∧
  r.mode = ProducerMode.Single ∧ r.buffer.length = 2 ^ k ∧
  r.tail < word64 ∧ r.head = (r.tail + q.length) % word64 ∧
  q.length ≤ 2 ^ k ∧
  ∀ i, i < q.length → r.buffer.getD ((r.tail + i) % 2 ^ k) default = q.getD i default

/-! ## Engine construction (`matching_engine.cpp`) -/

/-- Embeds `isPowerOfTwo` of `matching_engine.cpp`: `x && ((x & (x − 1)) == 0)`. -/
def isPowerOfTwo (x : Nat) : Bool :=
  x ≠ 0 && (x &&& (x - 1)) == 0

/-- The configuration the `MatchingEngine` constructor commits to once its
argument check passes. -/
structure EngineConfig where
  numShards : Nat
  ringCapacity : Nat
deriving DecidableEq

/-- The `MatchingEngine` constructor: throws `std::invalid_argument` when
the ring capacity is not a power of two, otherwise builds the shards. -/
def engineCreate (numShards ringCapacity : Nat) : Except String EngineConfig :=
  if !isPowerOfTwo ringCapacity then
    Except.error "ringCapacity must be power of two for SPSC ring"
  else
    Except.ok { numShards := numShards, ringCapacity := ringCapacity }

/-! ## Concrete fixtures used by the claim theorems and witnesses -/

def restingAsk100 : Order :=
  { id := 1, op := Op.New, side := Side.SELL, type := OrdType.LIMIT, priceCents := 100, qty := 5 }

def postOnlyBuy100 : Order :=
  { id := 2, op := Op.New, side := Side.BUY, type := OrdType.LIMIT, postOnly := true,
    priceCents := 100, qty := 5 }

def restingBid99 : Order :=
  { id := 1, op := Op.New, side := Side.BUY, type := OrdType.LIMIT, priceCents := 99, qty := 10 }

def replaceTo100 : Order :=
  { id := 2, op := Op.Replace, targetId := 1, newPriceCents := 100, newQty := 0 }

def bid90 : Order :=
  { id := 2, op := Op.New, side := Side.BUY, type := OrdType.LIMIT, priceCents := 90, qty := 5 }

def replaceTo110 : Order :=
  { id := 3, op := Op.Replace, side := Side.BUY, priceCents := 90, qty := 5, targetId := 2,
    newPriceCents := 110, newQty := 0 }

def restingAsk200 : Order :=
  { id := 1, op := Op.New, side := Side.SELL, type := OrdType.LIMIT, priceCents := 200, qty := 1 }

def iocBuy205 : Order :=
  { id := 2, op := Op.New, side := Side.BUY, type := OrdType.LIMIT, tif := TIF.IOC,
    priceCents := 205, qty := 5 }

def negPriceBid : Order :=
  { id := 1, op := Op.New, side := Side.BUY, type := OrdType.LIMIT, priceCents := -1, qty := 1 }

def fokState : ShardState :=
  { book := { asks := [(100, [{ restingAsk100 with qty := 2 }])] } }

def fokBuy : Order :=
  { id := 2, op := Op.New, side := Side.BUY, type := OrdType.LIMIT, tif := TIF.FOK,
    priceCents := 100, qty := 5 }

def thinAskState : ShardState :=
  { book := { asks := [(100, [{ id := 1, side := Side.SELL, priceCents := 100, qty := 1 }])] } }

def dayBuy100 : Order :=
  { id := 2, op := Op.New, side := Side.BUY, type := OrdType.LIMIT, priceCents := 100, qty := 3 }

def haltedState : ShardState :=
  { status := TradingStatus.Halted }

/-! # Lemmas about one side of the book -/

theorem insertAsc_cons_lt {o : Order} {p : Int} {lvl : Level} {rest : List (Int × Level)}
    (h : p < o.priceCents) :
    insertAsc o ((p, lvl) :: rest) = (p, lvl) :: insertAsc o rest := by
  simp [insertAsc, h]

theorem insertAsc_cons_eq {o : Order} {lvl : Level} {rest : List (Int × Level)} :
    insertAsc o ((o.priceCents, lvl) :: rest) = (o.priceCents, lvl ++ [o]) :: rest := by
  simp [insertAsc]

theorem insertAsc_cons_gt {o : Order} {p : Int} {lvl : Level} {rest : List (Int × Level)}
    (h : o.priceCents < p) :
    insertAsc o ((p, lvl) :: rest) = (o.priceCents, [o]) :: (p, lvl) :: rest := by
  have h1 : ¬p < o.priceCents := by omega
  have h2 : ¬p = o.priceCents := by omega
  simp [insertAsc, h1, h2]

theorem insertDesc_cons_gt {o : Order} {p : Int} {lvl : Level} {rest : List (Int × Level)}
    (h : p > o.priceCents) :
    insertDesc o ((p, lvl) :: rest) = (p, lvl) :: insertDesc o rest := by
  simp [insertDesc, h]

theorem insertDesc_cons_eq {o : Order} {lvl : Level} {rest : List (Int × Level)} :
    insertDesc o ((o.priceCents, lvl) :: rest) = (o.priceCents, lvl ++ [o]) :: rest := by
  simp [insertDesc]

theorem insertDesc_cons_lt {o : Order} {p : Int} {lvl : Level} {rest : List (Int × Level)}
    (h : p < o.priceCents) :
    insertDesc o ((p, lvl) :: rest) = (o.priceCents, [o]) :: (p, lvl) :: rest := by
  have h1 : ¬p > o.priceCents := by omega
  have h2 : ¬p = o.priceCents := by omega
  simp [insertDesc, h1, h2]

theorem mem_sidePrices_insertAsc {o : Order} {s : List (Int × Level)} {q : Int}
    (h : q ∈ sidePrices (insertAsc o s)) : q = o.priceCents ∨ q ∈ sidePrices s := by
  induction s with
  | nil => simpa [insertAsc, sidePrices] using h
  | cons pl rest ih =>
    obtain ⟨p, lvl⟩ := pl
    rcases lt_trichotomy p o.priceCents with h1 | h1 | h1
    · rw [insertAsc_cons_lt h1] at h
      simp only [sidePrices, List.map_cons, List.mem_cons] at h ⊢
      rcases h with h | h
      · exact Or.inr (Or.inl h)
      · rcases ih h with h2 | h2
        · exact Or.inl h2
        · exact Or.inr (Or.inr h2)
    · subst h1
      rw [insertAsc_cons_eq] at h
      simp only [sidePrices, List.map_cons, List.mem_cons] at h ⊢
      tauto
    · rw [insertAsc_cons_gt h1] at h
      simp only [sidePrices, List.map_cons, List.mem_cons] at h ⊢
      tauto

theorem sorted_insertAsc {o : Order} {s : List (Int × Level)}
    (hs : List.Sorted (· < ·) (sidePrices s)) :
    List.Sorted (· < ·) (sidePrices (insertAsc o s)) := by
  induction s with
  | nil => simp [insertAsc, sidePrices]
  | cons pl rest ih =>
    obtain ⟨p, lvl⟩ := pl
    simp only [sidePrices, List.map_cons, List.sorted_cons] at hs
    rcases lt_trichotomy p o.priceCents with h1 | h1 | h1
    · rw [insertAsc_cons_lt h1]
      simp only [sidePrices, List.map_cons, List.sorted_cons]
      refine ⟨fun q hq => ?_, ih hs.2⟩
      rcases mem_sidePrices_insertAsc hq with h2 | h2
      · exact h2 ▸ h1
      · exact hs.1 q h2
    · subst h1
      rw [insertAsc_cons_eq]
      simp only [sidePrices, List.map_cons, List.sorted_cons]
      exact hs
    · rw [insertAsc_cons_gt h1]
      simp only [sidePrices, List.map_cons, List.sorted_cons]
      refine ⟨fun q hq => ?_, hs⟩
      rcases List.mem_cons.mp hq with hq2 | hq2
      · exact hq2 ▸ h1
      · exact lt_trans h1 (hs.1 q hq2)

theorem noEmpty_insertAsc {o : Order} {s : List (Int × Level)}
    (hs : NoEmptyLevels s) : NoEmptyLevels (insertAsc o s) := by
  induction s with
  | nil => simp [insertAsc, NoEmptyLevels]
  | cons pl rest ih =>
    obtain ⟨p, lvl⟩ := pl
    have hlvl : lvl ≠ [] := hs (p, lvl) (by simp)
    have hrest : NoEmptyLevels rest := fun x hx => hs x (List.mem_cons_of_mem _ hx)
    rcases lt_trichotomy p o.priceCents with h1 | h1 | h1
    · rw [insertAsc_cons_lt h1]
      intro x hx
      rcases List.mem_cons.mp hx with h | h
      · exact h ▸ hlvl
      · exact ih hrest x h
    · subst h1
      rw [insertAsc_cons_eq]
      intro x hx
      rcases List.mem_cons.mp hx with h | h
      · subst h; simp
      · exact hrest x h
    · rw [insertAsc_cons_gt h1]
      intro x hx
      rcases List.mem_cons.mp hx with h | h
      · subst h; simp
      · rcases List.mem_cons.mp h with h3 | h3
        · exact h3 ▸ hlvl
        · exact hrest x h3

theorem mem_sideIds_insertAsc {o : Order} {s : List (Int × Level)} {x : Nat}
    (h : x ∈ sideIds (insertAsc o s)) : x = o.id ∨ x ∈ sideIds s := by
  induction s with
  | nil => simpa [insertAsc, sideIds] using h
  | cons pl rest ih =>
    obtain ⟨p, lvl⟩ := pl
    rcases lt_trichotomy p o.priceCents with h1 | h1 | h1
    · rw [insertAsc_cons_lt h1] at h
      simp only [sideIds, List.mem_append] at h ⊢
      rcases h with h | h
      · exact Or.inr (Or.inl h)
      · rcases ih h with h2 | h2
        · exact Or.inl h2
        · exact Or.inr (Or.inr h2)
    · subst h1
      rw [insertAsc_cons_eq] at h
      simp only [sideIds, List.map_append, List.map_cons, List.map_nil, List.mem_append,
        List.mem_cons, List.mem_singleton, List.not_mem_nil, or_false] at h ⊢
      tauto
    · rw [insertAsc_cons_gt h1] at h
      simp only [sideIds, List.map_cons, List.map_nil, List.mem_append, List.mem_cons,
        List.not_mem_nil, or_false, List.nil_append] at h ⊢
      tauto

theorem mem_sidePrices_insertDesc {o : Order} {s : List (Int × Level)} {q : Int}
    (h : q ∈ sidePrices (insertDesc o s)) : q = o.priceCents ∨ q ∈ sidePrices s := by
  induction s with
  | nil => simpa [insertDesc, sidePrices] using h
  | cons pl rest ih =>
    obtain ⟨p, lvl⟩ := pl
    rcases lt_trichotomy o.priceCents p with h1 | h1 | h1
    · rw [insertDesc_cons_gt h1] at h
      simp only [sidePrices, List.map_cons, List.mem_cons] at h ⊢
      rcases h with h | h
      · exact Or.inr (Or.inl h)
      · rcases ih h with h2 | h2
        · exact Or.inl h2
        · exact Or.inr (Or.inr h2)
    · subst h1
      rw [insertDesc_cons_eq] at h
      simp only [sidePrices, List.map_cons, List.mem_cons] at h ⊢
      tauto
    · rw [insertDesc_cons_lt h1] at h
      simp only [sidePrices, List.map_cons, List.mem_cons] at h ⊢
      tauto

theorem sorted_insertDesc {o : Order} {s : List (Int × Level)}
    (hs : List.Sorted (· > ·) (sidePrices s)) :
    List.Sorted (· > ·) (sidePrices (insertDesc o s)) := by
  induction s with
  | nil => simp [insertDesc, sidePrices]
  | cons pl rest ih =>
    obtain ⟨p, lvl⟩ := pl
    simp only [sidePrices, List.map_cons, List.sorted_cons] at hs
    rcases lt_trichotomy o.priceCents p with h1 | h1 | h1
    · rw [insertDesc_cons_gt h1]
      simp only [sidePrices, List.map_cons, List.sorted_cons]
      refine ⟨fun q hq => ?_, ih hs.2⟩
      rcases mem_sidePrices_insertDesc hq with h2 | h2
      · exact h2 ▸ h1
      · exact hs.1 q h2
    · subst h1
      rw [insertDesc_cons_eq]
      simp only [sidePrices, List.map_cons, List.sorted_cons]
      exact hs
    · rw [insertDesc_cons_lt h1]
      simp only [sidePrices, List.map_cons, List.sorted_cons]
      refine ⟨fun q hq => ?_, hs⟩
      rcases List.mem_cons.mp hq with hq2 | hq2
      · exact hq2 ▸ h1
      · exact lt_trans (hs.1 q hq2) h1

theorem noEmpty_insertDesc {o : Order} {s : List (Int × Level)}
    (hs : NoEmptyLevels s) : NoEmptyLevels (insertDesc o s) := by
  induction s with
  | nil => simp [insertDesc, NoEmptyLevels]
  | cons pl rest ih =>
    obtain ⟨p, lvl⟩ := pl
    have hlvl : lvl ≠ [] := hs (p, lvl) (by simp)
    have hrest : NoEmptyLevels rest := fun x hx => hs x (List.mem_cons_of_mem _ hx)
    rcases lt_trichotomy o.priceCents p with h1 | h1 | h1
    · rw [insertDesc_cons_gt h1]
      intro x hx
      rcases List.mem_cons.mp hx with h | h
      · exact h ▸ hlvl
      · exact ih hrest x h
    · subst h1
      rw [insertDesc_cons_eq]
      intro x hx
      rcases List.mem_cons.mp hx with h | h
      · subst h; simp
      · exact hrest x h
    · rw [insertDesc_cons_lt h1]
      intro x hx
      rcases List.mem_cons.mp hx with h | h
      · subst h; simp
      · rcases List.mem_cons.mp h with h3 | h3
        · exact h3 ▸ hlvl
        · exact hrest x h3

theorem mem_sideIds_insertDesc {o : Order} {s : List (Int × Level)} {x : Nat}
    (h : x ∈ sideIds (insertDesc o s)) : x = o.id ∨ x ∈ sideIds s := by
  induction s with
  | nil => simpa [insertDesc, sideIds] using h
  | cons pl rest ih =>
    obtain ⟨p, lvl⟩ := pl
    rcases lt_trichotomy o.priceCents p with h1 | h1 | h1
    · rw [insertDesc_cons_gt h1] at h
      simp only [sideIds, List.mem_append] at h ⊢
      rcases h with h | h
      · exact Or.inr (Or.inl h)
      · rcases ih h with h2 | h2
        · exact Or.inl h2
        · exact Or.inr (Or.inr h2)
    · subst h1
      rw [insertDesc_cons_eq] at h
      simp only [sideIds, List.map_append, List.map_cons, List.map_nil, List.mem_append,
        List.mem_cons, List.mem_singleton, List.not_mem_nil, or_false] at h ⊢
      tauto
    · rw [insertDesc_cons_lt h1] at h
      simp only [sideIds, List.map_cons, List.map_nil, List.mem_append, List.mem_cons,
        List.not_mem_nil, or_false, List.nil_append] at h ⊢
      tauto

/-- The inserted order is a member of the level at its own price. -/
theorem insertAsc_self_mem {o : Order} {s : List (Int × Level)} :
    ∃ lvl, (o.priceCents, lvl) ∈ insertAsc o s ∧ o ∈ lvl := by
  induction s with
  | nil => exact ⟨[o], by simp [insertAsc]⟩
  | cons pl rest ih =>
    obtain ⟨p, lvl⟩ := pl
    rcases lt_trichotomy p o.priceCents with h1 | h1 | h1
    · obtain ⟨lvl2, hmem, ho⟩ := ih
      exact ⟨lvl2, by rw [insertAsc_cons_lt h1]; exact List.mem_cons_of_mem _ hmem, ho⟩
    · subst h1
      exact ⟨lvl ++ [o], by rw [insertAsc_cons_eq]; simp, by simp⟩
    · exact ⟨[o], by rw [insertAsc_cons_gt h1]; simp, by simp⟩

/-- The inserted order is a member of the level at its own price. -/
theorem insertDesc_self_mem {o : Order} {s : List (Int × Level)} :
    ∃ lvl, (o.priceCents, lvl) ∈ insertDesc o s ∧ o ∈ lvl := by
  induction s with
  | nil => exact ⟨[o], by simp [insertDesc]⟩
  | cons pl rest ih =>
    obtain ⟨p, lvl⟩ := pl
    rcases lt_trichotomy o.priceCents p with h1 | h1 | h1
    · obtain ⟨lvl2, hmem, ho⟩ := ih
      exact ⟨lvl2, by rw [insertDesc_cons_gt h1]; exact List.mem_cons_of_mem _ hmem, ho⟩
    · subst h1
      exact ⟨lvl ++ [o], by rw [insertDesc_cons_eq]; simp, by simp⟩
    · exact ⟨[o], by rw [insertDesc_cons_lt h1]; simp, by simp⟩

/-! # Lemmas about removal by id -/

theorem removeFirst_sublist {orderId : Nat} {lvl lvl2 : Level}
    (h : removeFirst orderId lvl = some lvl2) : List.Sublist lvl2 lvl := by
  induction lvl generalizing lvl2 with
  | nil => simp [removeFirst] at h
  | cons o rest ih =>
    by_cases ho : o.id = orderId
    · simp only [removeFirst, if_pos ho, Option.some_inj] at h
      exact h ▸ List.sublist_cons_self o rest
    · simp only [removeFirst, if_neg ho, Option.map_eq_some'] at h
      obtain ⟨l2, hl2, rfl⟩ := h
      exact List.Sublist.cons₂ o (ih hl2)

theorem removeFirst_eq_none {orderId : Nat} {lvl : Level}
    (h : orderId ∉ lvl.map Order.id) : removeFirst orderId lvl = none := by
  induction lvl with
  | nil => rfl
  | cons o rest ih =>
    simp only [List.map_cons, List.mem_cons, not_or] at h
    have ho : o.id ≠ orderId := fun he => h.1 he.symm
    simp only [removeFirst, if_neg ho, ih h.2, Option.map_none']

theorem removeFirst_append_last {o : Order} {lvl : Level}
    (h : o.id ∉ lvl.map Order.id) : removeFirst o.id (lvl ++ [o]) = some lvl := by
  induction lvl with
  | nil => simp [removeFirst]
  | cons x rest ih =>
    simp only [List.map_cons, List.mem_cons, not_or] at h
    have hx : x.id ≠ o.id := fun he => h.1 he.symm
    simp only [List.cons_append, removeFirst, if_neg hx, List.append_eq, ih h.2,
      Option.map_some']

theorem removeByIdSide_prices_sublist {orderId : Nat} {s s2 : List (Int × Level)}
    (h : removeByIdSide orderId s = some s2) : List.Sublist (sidePrices s2) (sidePrices s) := by
  induction s generalizing s2 with
  | nil => simp [removeByIdSide] at h
  | cons pl rest ih =>
    obtain ⟨p, lvl⟩ := pl
    simp only [removeByIdSide] at h
    cases hrf : removeFirst orderId lvl with
    | some lvl2 =>
      rw [hrf] at h
      simp only [Option.some_inj] at h
      subst h
      by_cases he : lvl2.isEmpty
      · simp only [he, if_pos]
        exact (List.sublist_cons_self _ _).map Prod.fst
      · simp only [he, if_neg, Bool.false_eq_true, not_false_iff]
        simp only [sidePrices, List.map_cons]
        exact List.Sublist.cons₂ p (List.Sublist.refl _)
    | none =>
      rw [hrf] at h
      simp only [Option.map_eq_some'] at h
      obtain ⟨s3, hs3, rfl⟩ := h
      simp only [sidePrices, List.map_cons]
      exact List.Sublist.cons₂ p (ih hs3)

theorem removeByIdSide_ids_sublist {orderId : Nat} {s s2 : List (Int × Level)}
    (h : removeByIdSide orderId s = some s2) : List.Sublist (sideIds s2) (sideIds s) := by
  induction s generalizing s2 with
  | nil => simp [removeByIdSide] at h
  | cons pl rest ih =>
    obtain ⟨p, lvl⟩ := pl
    simp only [removeByIdSide] at h
    cases hrf : removeFirst orderId lvl with
    | some lvl2 =>
      rw [hrf] at h
      simp only [Option.some_inj] at h
      subst h
      have hsub : List.Sublist (lvl2.map Order.id) (lvl.map Order.id) :=
        (removeFirst_sublist hrf).map Order.id
      by_cases he : lvl2.isEmpty
      · simp only [he, if_pos, sideIds]
        exact List.sublist_append_right _ _
      · simp only [he, if_neg, Bool.false_eq_true, not_false_iff, sideIds]
        exact hsub.append (List.Sublist.refl _)
    | none =>
      rw [hrf] at h
      simp only [Option.map_eq_some'] at h
      obtain ⟨s3, hs3, rfl⟩ := h
      simp only [sideIds]
      exact (List.Sublist.refl _).append (ih hs3)

theorem removeByIdSide_noEmpty {orderId : Nat} {s s2 : List (Int × Level)}
    (hNE : NoEmptyLevels s) (h : removeByIdSide orderId s = some s2) : NoEmptyLevels s2 := by
  induction s generalizing s2 with
  | nil => simp [removeByIdSide] at h
  | cons pl rest ih =>
    obtain ⟨p, lvl⟩ := pl
    have hrest : NoEmptyLevels rest := fun x hx => hNE x (List.mem_cons_of_mem _ hx)
    simp only [removeByIdSide] at h
    cases hrf : removeFirst orderId lvl with
    | some lvl2 =>
      rw [hrf] at h
      simp only [Option.some_inj] at h
      subst h
      by_cases he : lvl2.isEmpty
      · simpa [he] using hrest
      · simp only [he, if_neg, Bool.false_eq_true, not_false_iff]
        intro x hx
        rcases List.mem_cons.mp hx with h2 | h2
        · subst h2
          simpa [List.isEmpty_iff] using he
        · exact hrest x h2
    | none =>
      rw [hrf] at h
      simp only [Option.map_eq_some'] at h
      obtain ⟨s3, hs3, rfl⟩ := h
      intro x hx
      rcases List.mem_cons.mp hx with h2 | h2
      · exact h2 ▸ hNE (p, lvl) (by simp)
      · exact ih hrest hs3 x h2

theorem removeByIdSide_eq_none {orderId : Nat} {s : List (Int × Level)}
    (h : orderId ∉ sideIds s) : removeByIdSide orderId s = none := by
  induction s with
  | nil => rfl
  | cons pl rest ih =>
    obtain ⟨p, lvl⟩ := pl
    simp only [sideIds, List.mem_append, not_or] at h
    simp only [removeByIdSide, removeFirst_eq_none h.1, ih h.2, Option.map_none']

theorem removeByIdSide_insertDesc {o : Order} {s : List (Int × Level)}
    (hNE : NoEmptyLevels s) (hid : o.id ∉ sideIds s) :
    removeByIdSide o.id (insertDesc o s) = some s := by
  induction s with
  | nil => simp [insertDesc, removeByIdSide, removeFirst]
  | cons pl rest ih =>
    obtain ⟨p, lvl⟩ := pl
    have hlvl : lvl ≠ [] := hNE (p, lvl) (by simp)
    have hrest : NoEmptyLevels rest := fun x hx => hNE x (List.mem_cons_of_mem _ hx)
    simp only [sideIds, List.mem_append, not_or] at hid
    rcases lt_trichotomy o.priceCents p with h1 | h1 | h1
    · rw [insertDesc_cons_gt h1]
      simp only [removeByIdSide, removeFirst_eq_none hid.1, ih hrest hid.2, Option.map_some']
    · subst h1
      rw [insertDesc_cons_eq]
      simp only [removeByIdSide, removeFirst_append_last hid.1]
      simp [List.isEmpty_iff, hlvl]
    · rw [insertDesc_cons_lt h1]
      simp only [removeByIdSide, removeFirst, if_pos rfl]
      simp

theorem removeByIdSide_insertAsc {o : Order} {s : List (Int × Level)}
    (hNE : NoEmptyLevels s) (hid : o.id ∉ sideIds s) :
    removeByIdSide o.id (insertAsc o s) = some s := by
  induction s with
  | nil => simp [insertAsc, removeByIdSide, removeFirst]
  | cons pl rest ih =>
    obtain ⟨p, lvl⟩ := pl
    have hlvl : lvl ≠ [] := hNE (p, lvl) (by simp)
    have hrest : NoEmptyLevels rest := fun x hx => hNE x (List.mem_cons_of_mem _ hx)
    simp only [sideIds, List.mem_append, not_or] at hid
    rcases lt_trichotomy p o.priceCents with h1 | h1 | h1
    · rw [insertAsc_cons_lt h1]
      simp only [removeByIdSide, removeFirst_eq_none hid.1, ih hrest hid.2, Option.map_some']
    · subst h1
      rw [insertAsc_cons_eq]
      simp only [removeByIdSide, removeFirst_append_last hid.1]
      simp [List.isEmpty_iff, hlvl]
    · rw [insertAsc_cons_gt h1]
      simp only [removeByIdSide, removeFirst, if_pos rfl]
      simp

theorem cancelById_not_found {b : OrderBook} {orderId : Nat} (h : orderId ∉ bookIds b) :
    cancelById b orderId = (false, b) := by
  simp only [bookIds, List.mem_append, not_or] at h
  simp [cancelById, removeByIdSide_eq_none h.1, removeByIdSide_eq_none h.2]

theorem cancelById_book_sublists (b : OrderBook) (orderId : Nat) :
    List.Sublist (sidePrices (cancelById b orderId).2.bids) (sidePrices b.bids) ∧
    List.Sublist (sidePrices (cancelById b orderId).2.asks) (sidePrices b.asks) ∧
    List.Sublist (sideIds (cancelById b orderId).2.bids) (sideIds b.bids) ∧
    List.Sublist (sideIds (cancelById b orderId).2.asks) (sideIds b.asks) ∧
    (NoEmptyLevels b.bids → NoEmptyLevels (cancelById b orderId).2.bids) ∧
    (NoEmptyLevels b.asks → NoEmptyLevels (cancelById b orderId).2.asks) := by
  unfold cancelById
  cases hb : removeByIdSide orderId b.bids with
  | some bids2 =>
    refine ⟨removeByIdSide_prices_sublist hb, List.Sublist.refl _,
      removeByIdSide_ids_sublist hb, List.Sublist.refl _,
      fun h => removeByIdSide_noEmpty h hb, id⟩
  | none =>
    cases ha : removeByIdSide orderId b.asks with
    | some asks2 =>
      refine ⟨List.Sublist.refl _, removeByIdSide_prices_sublist ha,
        List.Sublist.refl _, removeByIdSide_ids_sublist ha,
        id, fun h => removeByIdSide_noEmpty h ha⟩
    | none =>
      exact ⟨List.Sublist.refl _, List.Sublist.refl _, List.Sublist.refl _,
        List.Sublist.refl _, id, id⟩

theorem cancelById_addBid {b : OrderBook} {o : Order} (hNE : NoEmptyLevels b.bids)
    (hid : o.id ∉ sideIds b.bids) : cancelById (addBid b o) o.id = (true, b) := by
  simp only [cancelById, addBid]
  rw [removeByIdSide_insertDesc hNE hid]

theorem cancelById_addAsk {b : OrderBook} {o : Order} (hNE : NoEmptyLevels b.asks)
    (hidb : o.id ∉ sideIds b.bids) (hida : o.id ∉ sideIds b.asks) :
    cancelById (addAsk b o) o.id = (true, b) := by
  simp only [cancelById, addAsk]
  rw [removeByIdSide_eq_none hidb, removeByIdSide_insertAsc hNE hida]

/-! # Lemmas about the limit-buy matching loop -/

theorem matchBuyLoop_trade_sum (ord : Order) (remaining : Int) (gen : Nat)
    (asks : List (Int × Level)) :
    ((matchBuyLoop ord remaining gen asks).trades.map Trade.qty).sum
      = remaining - (matchBuyLoop ord remaining gen asks).remaining := by
  induction remaining, gen, asks using matchBuyLoop.induct ord with
  | case1 r g => simp [matchBuyLoop]
  | case2 r g p rest => simp [matchBuyLoop]
  | case3 r g p a lvlTail rest hguard hpop ih =>
    simp only [dite_eq_ite] at ih
    simp only [matchBuyLoop, if_pos hguard, if_pos hpop, List.map_cons, List.sum_cons]
    omega
  | case4 r g p a lvlTail rest hguard hpop =>
    simp only [matchBuyLoop, if_pos hguard, if_neg hpop, List.map_cons, List.map_nil,
      List.sum_cons, List.sum_nil]
    omega
  | case5 r g p a lvlTail rest hguard =>
    simp [matchBuyLoop, if_neg hguard]
theorem matchBuyLoop_events_qty_sum (ord : Order) (remaining : Int) (gen : Nat)
    (asks : List (Int × Level)) :
    ((matchBuyLoop ord remaining gen asks).events.map Event.qty).sum
      = remaining - (matchBuyLoop ord remaining gen asks).remaining := by
  induction remaining, gen, asks using matchBuyLoop.induct ord with
  | case1 r g => simp [matchBuyLoop]
  | case2 r g p rest => simp [matchBuyLoop]
  | case3 r g p a lvlTail rest hguard hpop ih =>
    simp only [dite_eq_ite] at ih
    simp only [matchBuyLoop, if_pos hguard, if_pos hpop, List.map_cons, List.sum_cons,
      execEvent]
    omega
  | case4 r g p a lvlTail rest hguard hpop =>
    simp only [matchBuyLoop, if_pos hguard, if_neg hpop, List.map_cons, List.map_nil,
      List.sum_cons, List.sum_nil, execEvent]
    omega
  | case5 r g p a lvlTail rest hguard =>
    simp [matchBuyLoop, if_neg hguard]

theorem matchBuyLoop_events_exec (ord : Order) (remaining : Int) (gen : Nat)
    (asks : List (Int × Level)) :
    ∀ e ∈ (matchBuyLoop ord remaining gen asks).events, e.type = EventType.Exec := by
  induction remaining, gen, asks using matchBuyLoop.induct ord with
  | case1 r g => simp [matchBuyLoop]
  | case2 r g p rest => simp [matchBuyLoop]
  | case3 r g p a lvlTail rest hguard hpop ih =>
    simp only [dite_eq_ite] at ih
    simp only [matchBuyLoop, if_pos hguard, if_pos hpop]
    intro e he
    rcases List.mem_cons.mp he with h | h
    · subst h; rfl
    · exact ih e h
  | case4 r g p a lvlTail rest hguard hpop =>
    simp only [matchBuyLoop, if_pos hguard, if_neg hpop]
    intro e he
    rcases List.mem_cons.mp he with h | h
    · subst h; rfl
    · simp at h
  | case5 r g p a lvlTail rest hguard =>
    simp [matchBuyLoop, if_neg hguard]

theorem matchBuyLoop_remaining_nonneg (ord : Order) (remaining : Int) (gen : Nat)
    (asks : List (Int × Level)) (h0 : 0 ≤ remaining) :
    0 ≤ (matchBuyLoop ord remaining gen asks).remaining := by
  induction remaining, gen, asks using matchBuyLoop.induct ord with
  | case1 r g => simpa [matchBuyLoop] using h0
  | case2 r g p rest => simpa [matchBuyLoop] using h0
  | case3 r g p a lvlTail rest hguard hpop ih =>
    simp only [dite_eq_ite] at ih
    simp only [matchBuyLoop, if_pos hguard, if_pos hpop]
    exact ih (by omega)
  | case4 r g p a lvlTail rest hguard hpop =>
    simp only [matchBuyLoop, if_pos hguard, if_neg hpop]
    omega
  | case5 r g p a lvlTail rest hguard =>
    simpa [matchBuyLoop, if_neg hguard] using h0

theorem matchBuyLoop_prices_sublist (ord : Order) (remaining : Int) (gen : Nat)
    (asks : List (Int × Level)) :
    List.Sublist (sidePrices (matchBuyLoop ord remaining gen asks).levels) (sidePrices asks) := by
  induction remaining, gen, asks using matchBuyLoop.induct ord with
  | case1 r g => simp [matchBuyLoop]
  | case2 r g p rest => simp [matchBuyLoop]
  | case3 r g p a lvlTail rest hguard hpop ih =>
    simp only [dite_eq_ite] at ih
    simp only [matchBuyLoop, if_pos hguard, if_pos hpop]
    refine ih.trans ?_
    by_cases he : lvlTail.isEmpty
    · simp only [he, if_pos, sidePrices, List.map_cons]
      exact List.sublist_cons_self p _
    · simp only [he, if_neg, Bool.false_eq_true, not_false_iff, sidePrices, List.map_cons]
      exact List.Sublist.refl _
  | case4 r g p a lvlTail rest hguard hpop =>
    simp only [matchBuyLoop, if_pos hguard, if_neg hpop, sidePrices, List.map_cons]
    exact List.Sublist.refl _
  | case5 r g p a lvlTail rest hguard =>
    simp [matchBuyLoop, if_neg hguard]

theorem matchBuyLoop_ids_sublist (ord : Order) (remaining : Int) (gen : Nat)
    (asks : List (Int × Level)) :
    List.Sublist (sideIds (matchBuyLoop ord remaining gen asks).levels) (sideIds asks) := by
  induction remaining, gen, asks using matchBuyLoop.induct ord with
  | case1 r g => simp [matchBuyLoop]
  | case2 r g p rest => simp [matchBuyLoop]
  | case3 r g p a lvlTail rest hguard hpop ih =>
    simp only [dite_eq_ite] at ih
    simp only [matchBuyLoop, if_pos hguard, if_pos hpop]
    refine ih.trans ?_
    by_cases he : lvlTail.isEmpty
    · have : lvlTail = [] := List.isEmpty_iff.mp he
      subst this
      simp only [he, if_pos, sideIds, List.map_cons, List.map_nil, List.nil_append]
      exact List.sublist_cons_self a.id _
    · simp only [he, if_neg, Bool.false_eq_true, not_false_iff, sideIds, List.map_cons,
        List.cons_append]
      exact List.sublist_cons_self a.id _
  | case4 r g p a lvlTail rest hguard hpop =>
    simp only [matchBuyLoop, if_pos hguard, if_neg hpop, sideIds, List.map_cons,
      List.cons_append]
    exact List.Sublist.refl _
  | case5 r g p a lvlTail rest hguard =>
    simp [matchBuyLoop, if_neg hguard]

theorem matchBuyLoop_noEmpty (ord : Order) (remaining : Int) (gen : Nat)
    (asks : List (Int × Level)) (hNE : NoEmptyLevels asks) :
    NoEmptyLevels (matchBuyLoop ord remaining gen asks).levels := by
  induction remaining, gen, asks using matchBuyLoop.induct ord with
  | case1 r g => simp [matchBuyLoop, NoEmptyLevels]
  | case2 r g p rest => exact absurd rfl (hNE (p, []) (by simp))
  | case3 r g p a lvlTail rest hguard hpop ih =>
    simp only [dite_eq_ite] at ih
    have hrest : NoEmptyLevels rest := fun x hx => hNE x (List.mem_cons_of_mem _ hx)
    simp only [matchBuyLoop, if_pos hguard, if_pos hpop]
    apply ih
    by_cases he : lvlTail.isEmpty
    · simpa [he] using hrest
    · simp only [he, if_neg, Bool.false_eq_true, not_false_iff]
      intro x hx
      rcases List.mem_cons.mp hx with h | h
      · subst h
        simpa [List.isEmpty_iff] using he
      · exact hrest x h
  | case4 r g p a lvlTail rest hguard hpop =>
    simp only [matchBuyLoop, if_pos hguard, if_neg hpop]
    intro x hx
    rcases List.mem_cons.mp hx with h | h
    · subst h; simp
    · exact hNE x (List.mem_cons_of_mem _ h)
  | case5 r g p a lvlTail rest hguard =>
    simpa [matchBuyLoop, if_neg hguard] using hNE

theorem matchBuyLoop_residual_prices (ord : Order) (remaining : Int) (gen : Nat)
    (asks : List (Int × Level)) (hNE : NoEmptyLevels asks)
    (hs : List.Sorted (· < ·) (sidePrices asks))
    (hpos : 0 < (matchBuyLoop ord remaining gen asks).remaining) :
    ∀ q ∈ sidePrices (matchBuyLoop ord remaining gen asks).levels, ord.priceCents < q := by
  induction remaining, gen, asks using matchBuyLoop.induct ord with
  | case1 r g => simp [matchBuyLoop, sidePrices]
  | case2 r g p rest => exact absurd rfl (hNE (p, []) (by simp))
  | case3 r g p a lvlTail rest hguard hpop ih =>
    simp only [dite_eq_ite] at ih
    have hrest : NoEmptyLevels rest := fun x hx => hNE x (List.mem_cons_of_mem _ hx)
    simp only [matchBuyLoop, if_pos hguard, if_pos hpop] at hpos ⊢
    apply ih
    · by_cases he : lvlTail.isEmpty
      · simpa [he] using hrest
      · simp only [he, if_neg, Bool.false_eq_true, not_false_iff]
        intro x hx
        rcases List.mem_cons.mp hx with h | h
        · subst h
          simpa [List.isEmpty_iff] using he
        · exact hrest x h
    · apply hs.sublist
      by_cases he : lvlTail.isEmpty
      · simp only [he, if_pos, sidePrices, List.map_cons]
        exact List.sublist_cons_self p _
      · simp only [he, if_neg, Bool.false_eq_true, not_false_iff, sidePrices, List.map_cons]
        exact List.Sublist.refl _
    · exact hpos
  | case4 r g p a lvlTail rest hguard hpop =>
    simp only [matchBuyLoop, if_pos hguard, if_neg hpop] at hpos
    omega
  | case5 r g p a lvlTail rest hguard =>
    simp only [matchBuyLoop, if_neg hguard] at hpos ⊢
    have hp : ord.priceCents < p := by
      rcases not_and_or.mp hguard with h | h
      · omega
      · omega
    intro q hq
    simp only [sidePrices, List.map_cons, List.mem_cons] at hq
    rcases hq with h | h
    · exact h ▸ hp
    · simp only [sidePrices, List.map_cons, List.sorted_cons] at hs
      exact lt_trans hp (hs.1 q h)

theorem matchBuyLoop_full_fill (ord : Order) (remaining : Int) (gen : Nat)
    (asks : List (Int × Level)) (hNE : NoEmptyLevels asks) (h0 : 0 ≤ remaining)
    (hav : remaining ≤ availAsc ord.priceCents asks) :
    (matchBuyLoop ord remaining gen asks).remaining = 0 := by
  induction remaining, gen, asks using matchBuyLoop.induct ord with
  | case1 r g =>
    simp only [availAsc] at hav
    simp only [matchBuyLoop]
    omega
  | case2 r g p rest => exact absurd rfl (hNE (p, []) (by simp))
  | case3 r g p a lvlTail rest hguard hpop ih =>
    simp only [dite_eq_ite] at ih
    have hrest : NoEmptyLevels rest := fun x hx => hNE x (List.mem_cons_of_mem _ hx)
    have hple : p ≤ ord.priceCents := hguard.2
    simp only [availAsc, if_pos hple, List.map_cons, List.sum_cons] at hav
    simp only [matchBuyLoop, if_pos hguard, if_pos hpop]
    apply ih
    · by_cases he : lvlTail.isEmpty
      · simpa [he] using hrest
      · simp only [he, if_neg, Bool.false_eq_true, not_false_iff]
        intro x hx
        rcases List.mem_cons.mp hx with h | h
        · subst h
          simpa [List.isEmpty_iff] using he
        · exact hrest x h
    · omega
    · by_cases he : lvlTail.isEmpty
      · have : lvlTail = [] := List.isEmpty_iff.mp he
        subst this
        simp only [he, if_pos]
        simp only [List.map_nil, List.sum_nil] at hav
        omega
      · simp only [he, if_neg, Bool.false_eq_true, not_false_iff]
        simp only [availAsc, if_pos hple]
        omega
  | case4 r g p a lvlTail rest hguard hpop =>
    simp only [matchBuyLoop, if_pos hguard, if_neg hpop]
    omega
  | case5 r g p a lvlTail rest hguard =>
    simp only [matchBuyLoop, if_neg hguard]
    rcases not_and_or.mp hguard with h | h
    · omega
    · have hp : ¬p ≤ ord.priceCents := h
      simp only [availAsc, if_neg hp] at hav
      omega

/-! # Lemmas about the limit-sell matching loop (mirror of the buy side) -/

theorem matchSellLoop_trade_sum (ord : Order) (remaining : Int) (gen : Nat)
    (bids : List (Int × Level)) :
    ((matchSellLoop ord remaining gen bids).trades.map Trade.qty).sum
      = remaining - (matchSellLoop ord remaining gen bids).remaining := by
  induction remaining, gen, bids using matchSellLoop.induct ord with
  | case1 r g => simp [matchSellLoop]
  | case2 r g p rest => simp [matchSellLoop]
  | case3 r g p a lvlTail rest hguard hpop ih =>
    simp only [dite_eq_ite] at ih
    simp only [matchSellLoop, if_pos hguard, if_pos hpop, List.map_cons, List.sum_cons]
    omega
  | case4 r g p a lvlTail rest hguard hpop =>
    simp only [matchSellLoop, if_pos hguard, if_neg hpop, List.map_cons, List.map_nil,
      List.sum_cons, List.sum_nil]
    omega
  | case5 r g p a lvlTail rest hguard =>
    simp [matchSellLoop, if_neg hguard]
theorem matchSellLoop_events_qty_sum (ord : Order) (remaining : Int) (gen : Nat)
    (bids : List (Int × Level)) :
    ((matchSellLoop ord remaining gen bids).events.map Event.qty).sum
      = remaining - (matchSellLoop ord remaining gen bids).remaining := by
  induction remaining, gen, bids using matchSellLoop.induct ord with
  | case1 r g => simp [matchSellLoop]
  | case2 r g p rest => simp [matchSellLoop]
  | case3 r g p a lvlTail rest hguard hpop ih =>
    simp only [dite_eq_ite] at ih
    simp only [matchSellLoop, if_pos hguard, if_pos hpop, List.map_cons, List.sum_cons,
      execEvent]
    omega
  | case4 r g p a lvlTail rest hguard hpop =>
    simp only [matchSellLoop, if_pos hguard, if_neg hpop, List.map_cons, List.map_nil,
      List.sum_cons, List.sum_nil, execEvent]
    omega
  | case5 r g p a lvlTail rest hguard =>
    simp [matchSellLoop, if_neg hguard]

theorem matchSellLoop_events_exec (ord : Order) (remaining : Int) (gen : Nat)
    (bids : List (Int × Level)) :
    ∀ e ∈ (matchSellLoop ord remaining gen bids).events, e.type = EventType.Exec := by
  induction remaining, gen, bids using matchSellLoop.induct ord with
  | case1 r g => simp [matchSellLoop]
  | case2 r g p rest => simp [matchSellLoop]
  | case3 r g p a lvlTail rest hguard hpop ih =>
    simp only [dite_eq_ite] at ih
    simp only [matchSellLoop, if_pos hguard, if_pos hpop]
    intro e he
    rcases List.mem_cons.mp he with h | h
    · subst h; rfl
    · exact ih e h
  | case4 r g p a lvlTail rest hguard hpop =>
    simp only [matchSellLoop, if_pos hguard, if_neg hpop]
    intro e he
    rcases List.mem_cons.mp he with h | h
    · subst h; rfl
    · simp at h
  | case5 r g p a lvlTail rest hguard =>
    simp [matchSellLoop, if_neg hguard]

theorem matchSellLoop_remaining_nonneg (ord : Order) (remaining : Int) (gen : Nat)
    (bids : List (Int × Level)) (h0 : 0 ≤ remaining) :
    0 ≤ (matchSellLoop ord remaining gen bids).remaining := by
  induction remaining, gen, bids using matchSellLoop.induct ord with
  | case1 r g => simpa [matchSellLoop] using h0
  | case2 r g p rest => simpa [matchSellLoop] using h0
  | case3 r g p a lvlTail rest hguard hpop ih =>
    simp only [dite_eq_ite] at ih
    simp only [matchSellLoop, if_pos hguard, if_pos hpop]
    exact ih (by omega)
  | case4 r g p a lvlTail rest hguard hpop =>
    simp only [matchSellLoop, if_pos hguard, if_neg hpop]
    omega
  | case5 r g p a lvlTail rest hguard =>
    simpa [matchSellLoop, if_neg hguard] using h0

theorem matchSellLoop_prices_sublist (ord : Order) (remaining : Int) (gen : Nat)
    (bids : List (Int × Level)) :
    List.Sublist (sidePrices (matchSellLoop ord remaining gen bids).levels) (sidePrices bids) := by
  induction remaining, gen, bids using matchSellLoop.induct ord with
  | case1 r g => simp [matchSellLoop]
  | case2 r g p rest => simp [matchSellLoop]
  | case3 r g p a lvlTail rest hguard hpop ih =>
    simp only [dite_eq_ite] at ih
    simp only [matchSellLoop, if_pos hguard, if_pos hpop]
    refine ih.trans ?_
    by_cases he : lvlTail.isEmpty
    · simp only [he, if_pos, sidePrices, List.map_cons]
      exact List.sublist_cons_self p _
    · simp only [he, if_neg, Bool.false_eq_true, not_false_iff, sidePrices, List.map_cons]
      exact List.Sublist.refl _
  | case4 r g p a lvlTail rest hguard hpop =>
    simp only [matchSellLoop, if_pos hguard, if_neg hpop, sidePrices, List.map_cons]
    exact List.Sublist.refl _
  | case5 r g p a lvlTail rest hguard =>
    simp [matchSellLoop, if_neg hguard]

theorem matchSellLoop_ids_sublist (ord : Order) (remaining : Int) (gen : Nat)
    (bids : List (Int × Level)) :
    List.Sublist (sideIds (matchSellLoop ord remaining gen bids).levels) (sideIds bids) := by
  induction remaining, gen, bids using matchSellLoop.induct ord with
  | case1 r g => simp [matchSellLoop]
  | case2 r g p rest => simp [matchSellLoop]
  | case3 r g p a lvlTail rest hguard hpop ih =>
    simp only [dite_eq_ite] at ih
    simp only [matchSellLoop, if_pos hguard, if_pos hpop]
    refine ih.trans ?_
    by_cases he : lvlTail.isEmpty
    · have : lvlTail = [] := List.isEmpty_iff.mp he
      subst this
      simp only [he, if_pos, sideIds, List.map_cons, List.map_nil, List.nil_append]
      exact List.sublist_cons_self a.id _
    · simp only [he, if_neg, Bool.false_eq_true, not_false_iff, sideIds, List.map_cons,
        List.cons_append]
      exact List.sublist_cons_self a.id _
  | case4 r g p a lvlTail rest hguard hpop =>
    simp only [matchSellLoop, if_pos hguard, if_neg hpop, sideIds, List.map_cons,
      List.cons_append]
    exact List.Sublist.refl _
  | case5 r g p a lvlTail rest hguard =>
    simp [matchSellLoop, if_neg hguard]

theorem matchSellLoop_noEmpty (ord : Order) (remaining : Int) (gen : Nat)
    (bids : List (Int × Level)) (hNE : NoEmptyLevels bids) :
    NoEmptyLevels (matchSellLoop ord remaining gen bids).levels := by
  induction remaining, gen, bids using matchSellLoop.induct ord with
  | case1 r g => simp [matchSellLoop, NoEmptyLevels]
  | case2 r g p rest => exact absurd rfl (hNE (p, []) (by simp))
  | case3 r g p a lvlTail rest hguard hpop ih =>
    simp only [dite_eq_ite] at ih
    have hrest : NoEmptyLevels rest := fun x hx => hNE x (List.mem_cons_of_mem _ hx)
    simp only [matchSellLoop, if_pos hguard, if_pos hpop]
    apply ih
    by_cases he : lvlTail.isEmpty
    · simpa [he] using hrest
    · simp only [he, if_neg, Bool.false_eq_true, not_false_iff]
      intro x hx
      rcases List.mem_cons.mp hx with h | h
      · subst h
        simpa [List.isEmpty_iff] using he
      · exact hrest x h
  | case4 r g p a lvlTail rest hguard hpop =>
    simp only [matchSellLoop, if_pos hguard, if_neg hpop]
    intro x hx
    rcases List.mem_cons.mp hx with h | h
    · subst h; simp
    · exact hNE x (List.mem_cons_of_mem _ h)
  | case5 r g p a lvlTail rest hguard =>
    simpa [matchSellLoop, if_neg hguard] using hNE

theorem matchSellLoop_residual_prices (ord : Order) (remaining : Int) (gen : Nat)
    (bids : List (Int × Level)) (hNE : NoEmptyLevels bids)
    (hs : List.Sorted (· > ·) (sidePrices bids))
    (hpos : 0 < (matchSellLoop ord remaining gen bids).remaining) :
    ∀ q ∈ sidePrices (matchSellLoop ord remaining gen bids).levels, q < ord.priceCents := by
  induction remaining, gen, bids using matchSellLoop.induct ord with
  | case1 r g => simp [matchSellLoop, sidePrices]
  | case2 r g p rest => exact absurd rfl (hNE (p, []) (by simp))
  | case3 r g p a lvlTail rest hguard hpop ih =>
    simp only [dite_eq_ite] at ih
    have hrest : NoEmptyLevels rest := fun x hx => hNE x (List.mem_cons_of_mem _ hx)
    simp only [matchSellLoop, if_pos hguard, if_pos hpop] at hpos ⊢
    apply ih
    · by_cases he : lvlTail.isEmpty
      · simpa [he] using hrest
      · simp only [he, if_neg, Bool.false_eq_true, not_false_iff]
        intro x hx
        rcases List.mem_cons.mp hx with h | h
        · subst h
          simpa [List.isEmpty_iff] using he
        · exact hrest x h
    · apply hs.sublist
      by_cases he : lvlTail.isEmpty
      · simp only [he, if_pos, sidePrices, List.map_cons]
        exact List.sublist_cons_self p _
      · simp only [he, if_neg, Bool.false_eq_true, not_false_iff, sidePrices, List.map_cons]
        exact List.Sublist.refl _
    · exact hpos
  | case4 r g p a lvlTail rest hguard hpop =>
    simp only [matchSellLoop, if_pos hguard, if_neg hpop] at hpos
    omega
  | case5 r g p a lvlTail rest hguard =>
    simp only [matchSellLoop, if_neg hguard] at hpos ⊢
    have hp : p < ord.priceCents := by
      rcases not_and_or.mp hguard with h | h
      · omega
      · omega
    intro q hq
    simp only [sidePrices, List.map_cons, List.mem_cons] at hq
    rcases hq with h | h
    · exact h ▸ hp
    · simp only [sidePrices, List.map_cons, List.sorted_cons] at hs
      exact lt_trans (hs.1 q h) hp

theorem matchSellLoop_full_fill (ord : Order) (remaining : Int) (gen : Nat)
    (bids : List (Int × Level)) (hNE : NoEmptyLevels bids) (h0 : 0 ≤ remaining)
    (hav : remaining ≤ availDesc ord.priceCents bids) :
    (matchSellLoop ord remaining gen bids).remaining = 0 := by
  induction remaining, gen, bids using matchSellLoop.induct ord with
  | case1 r g =>
    simp only [availDesc] at hav
    simp only [matchSellLoop]
    omega
  | case2 r g p rest => exact absurd rfl (hNE (p, []) (by simp))
  | case3 r g p a lvlTail rest hguard hpop ih =>
    simp only [dite_eq_ite] at ih
    have hrest : NoEmptyLevels rest := fun x hx => hNE x (List.mem_cons_of_mem _ hx)
    have hple : p ≥ ord.priceCents := hguard.2
    simp only [availDesc, if_pos hple, List.map_cons, List.sum_cons] at hav
    simp only [matchSellLoop, if_pos hguard, if_pos hpop]
    apply ih
    · by_cases he : lvlTail.isEmpty
      · simpa [he] using hrest
      · simp only [he, if_neg, Bool.false_eq_true, not_false_iff]
        intro x hx
        rcases List.mem_cons.mp hx with h | h
        · subst h
          simpa [List.isEmpty_iff] using he
        · exact hrest x h
    · omega
    · by_cases he : lvlTail.isEmpty
      · have : lvlTail = [] := List.isEmpty_iff.mp he
        subst this
        simp only [he, if_pos]
        simp only [List.map_nil, List.sum_nil] at hav
        omega
      · simp only [he, if_neg, Bool.false_eq_true, not_false_iff]
        simp only [availDesc, if_pos hple]
        omega
  | case4 r g p a lvlTail rest hguard hpop =>
    simp only [matchSellLoop, if_pos hguard, if_neg hpop]
    omega
  | case5 r g p a lvlTail rest hguard =>
    simp only [matchSellLoop, if_neg hguard]
    rcases not_and_or.mp hguard with h | h
    · omega
    · have hp : ¬p ≥ ord.priceCents := h
      simp only [availDesc, if_neg hp] at hav
      omega

/-! # Lemmas about the market matching loops -/

theorem marketBuyLoop_trade_sum (ord : Order) (remaining : Int) (gen : Nat)
    (levels notional : Int) (asks : List (Int × Level)) :
    ((marketBuyLoop ord remaining gen levels notional asks).trades.map Trade.qty).sum
      = remaining - (marketBuyLoop ord remaining gen levels notional asks).remaining := by
  induction remaining, gen, levels, notional, asks using marketBuyLoop.induct ord with
  | case1 r g lv nt => simp [marketBuyLoop]
  | case2 r g lv nt p rest => simp [marketBuyLoop]
  | case3 r g lv nt p a lvlTail rest hguard hnot =>
    simp [marketBuyLoop, if_pos hguard, if_pos hnot]
  | case4 r g lv nt p a lvlTail rest hguard hnot hpop ih =>
    simp only [dite_eq_ite] at ih
    simp only [marketBuyLoop, if_pos hguard, if_neg hnot, if_pos hpop, List.map_cons,
      List.sum_cons]
    omega
  | case5 r g lv nt p a lvlTail rest hguard hnot hpop =>
    simp only [marketBuyLoop, if_pos hguard, if_neg hnot, if_neg hpop, List.map_cons,
      List.map_nil, List.sum_cons, List.sum_nil]
    omega
  | case6 r g lv nt p a lvlTail rest hguard =>
    simp [marketBuyLoop, if_neg hguard]

theorem marketBuyLoop_remaining_nonneg (ord : Order) (remaining : Int) (gen : Nat)
    (levels notional : Int) (asks : List (Int × Level)) (h0 : 0 ≤ remaining) :
    0 ≤ (marketBuyLoop ord remaining gen levels notional asks).remaining := by
  induction remaining, gen, levels, notional, asks using marketBuyLoop.induct ord with
  | case1 r g lv nt => simpa [marketBuyLoop] using h0
  | case2 r g lv nt p rest => simpa [marketBuyLoop] using h0
  | case3 r g lv nt p a lvlTail rest hguard hnot =>
    simpa [marketBuyLoop, if_pos hguard, if_pos hnot] using h0
  | case4 r g lv nt p a lvlTail rest hguard hnot hpop ih =>
    simp only [dite_eq_ite] at ih
    simp only [marketBuyLoop, if_pos hguard, if_neg hnot, if_pos hpop]
    exact ih (by omega)
  | case5 r g lv nt p a lvlTail rest hguard hnot hpop =>
    simp only [marketBuyLoop, if_pos hguard, if_neg hnot, if_neg hpop]
    omega
  | case6 r g lv nt p a lvlTail rest hguard =>
    simpa [marketBuyLoop, if_neg hguard] using h0

theorem marketBuyLoop_prices_sublist (ord : Order) (remaining : Int) (gen : Nat)
    (levels notional : Int) (asks : List (Int × Level)) :
    List.Sublist (sidePrices (marketBuyLoop ord remaining gen levels notional asks).levels)
      (sidePrices asks) := by
  induction remaining, gen, levels, notional, asks using marketBuyLoop.induct ord with
  | case1 r g lv nt => simp [marketBuyLoop]
  | case2 r g lv nt p rest => simp [marketBuyLoop]
  | case3 r g lv nt p a lvlTail rest hguard hnot =>
    simp [marketBuyLoop, if_pos hguard, if_pos hnot]
  | case4 r g lv nt p a lvlTail rest hguard hnot hpop ih =>
    simp only [dite_eq_ite] at ih
    simp only [marketBuyLoop, if_pos hguard, if_neg hnot, if_pos hpop]
    refine ih.trans ?_
    by_cases he : lvlTail.isEmpty
    · simp only [he, if_pos, sidePrices, List.map_cons]
      exact List.sublist_cons_self p _
    · simp only [he, if_neg, Bool.false_eq_true, not_false_iff, sidePrices, List.map_cons]
      exact List.Sublist.refl _
  | case5 r g lv nt p a lvlTail rest hguard hnot hpop =>
    simp only [marketBuyLoop, if_pos hguard, if_neg hnot, if_neg hpop, sidePrices,
      List.map_cons]
    exact List.Sublist.refl _
  | case6 r g lv nt p a lvlTail rest hguard =>
    simp [marketBuyLoop, if_neg hguard]

theorem marketBuyLoop_ids_sublist (ord : Order) (remaining : Int) (gen : Nat)
    (levels notional : Int) (asks : List (Int × Level)) :
    List.Sublist (sideIds (marketBuyLoop ord remaining gen levels notional asks).levels)
      (sideIds asks) := by
  induction remaining, gen, levels, notional, asks using marketBuyLoop.induct ord with
  | case1 r g lv nt => simp [marketBuyLoop]
  | case2 r g lv nt p rest => simp [marketBuyLoop]
  | case3 r g lv nt p a lvlTail rest hguard hnot =>
    simp [marketBuyLoop, if_pos hguard, if_pos hnot]
  | case4 r g lv nt p a lvlTail rest hguard hnot hpop ih =>
    simp only [dite_eq_ite] at ih
    simp only [marketBuyLoop, if_pos hguard, if_neg hnot, if_pos hpop]
    refine ih.trans ?_
    by_cases he : lvlTail.isEmpty
    · have : lvlTail = [] := List.isEmpty_iff.mp he
      subst this
      simp only [he, if_pos, sideIds, List.map_cons, List.map_nil, List.nil_append]
      exact List.sublist_cons_self a.id _
    · simp only [he, if_neg, Bool.false_eq_true, not_false_iff, sideIds, List.map_cons,
        List.cons_append]
      exact List.sublist_cons_self a.id _
  | case5 r g lv nt p a lvlTail rest hguard hnot hpop =>
    simp only [marketBuyLoop, if_pos hguard, if_neg hnot, if_neg hpop, sideIds,
      List.map_cons, List.cons_append]
    exact List.Sublist.refl _
  | case6 r g lv nt p a lvlTail rest hguard =>
    simp [marketBuyLoop, if_neg hguard]

theorem marketBuyLoop_noEmpty (ord : Order) (remaining : Int) (gen : Nat)
    (levels notional : Int) (asks : List (Int × Level)) (hNE : NoEmptyLevels asks) :
    NoEmptyLevels (marketBuyLoop ord remaining gen levels notional asks).levels := by
  induction remaining, gen, levels, notional, asks using marketBuyLoop.induct ord with
  | case1 r g lv nt => simp [marketBuyLoop, NoEmptyLevels]
  | case2 r g lv nt p rest => exact absurd rfl (hNE (p, []) (by simp))
  | case3 r g lv nt p a lvlTail rest hguard hnot =>
    simpa [marketBuyLoop, if_pos hguard, if_pos hnot] using hNE
  | case4 r g lv nt p a lvlTail rest hguard hnot hpop ih =>
    simp only [dite_eq_ite] at ih
    have hrest : NoEmptyLevels rest := fun x hx => hNE x (List.mem_cons_of_mem _ hx)
    simp only [marketBuyLoop, if_pos hguard, if_neg hnot, if_pos hpop]
    apply ih
    by_cases he : lvlTail.isEmpty
    · simpa [he] using hrest
    · simp only [he, if_neg, Bool.false_eq_true, not_false_iff]
      intro x hx
      rcases List.mem_cons.mp hx with h | h
      · subst h
        simpa [List.isEmpty_iff] using he
      · exact hrest x h
  | case5 r g lv nt p a lvlTail rest hguard hnot hpop =>
    simp only [marketBuyLoop, if_pos hguard, if_neg hnot, if_neg hpop]
    intro x hx
    rcases List.mem_cons.mp hx with h | h
    · subst h; simp
    · exact hNE x (List.mem_cons_of_mem _ h)
  | case6 r g lv nt p a lvlTail rest hguard =>
    simpa [marketBuyLoop, if_neg hguard] using hNE

/-! # Lemmas about the market-sell matching loop (mirror of the buy side) -/

theorem marketSellLoop_trade_sum (ord : Order) (remaining : Int) (gen : Nat)
    (levels notional : Int) (bids : List (Int × Level)) :
    ((marketSellLoop ord remaining gen levels notional bids).trades.map Trade.qty).sum
      = remaining - (marketSellLoop ord remaining gen levels notional bids).remaining := by
  induction remaining, gen, levels, notional, bids using marketSellLoop.induct ord with
  | case1 r g lv nt => simp [marketSellLoop]
  | case2 r g lv nt p rest => simp [marketSellLoop]
  | case3 r g lv nt p a lvlTail rest hguard hnot =>
    simp [marketSellLoop, if_pos hguard, if_pos hnot]
  | case4 r g lv nt p a lvlTail rest hguard hnot hpop ih =>
    simp only [dite_eq_ite] at ih
    simp only [marketSellLoop, if_pos hguard, if_neg hnot, if_pos hpop, List.map_cons,
      List.sum_cons]
    omega
  | case5 r g lv nt p a lvlTail rest hguard hnot hpop =>
    simp only [marketSellLoop, if_pos hguard, if_neg hnot, if_neg hpop, List.map_cons,
      List.map_nil, List.sum_cons, List.sum_nil]
    omega
  | case6 r g lv nt p a lvlTail rest hguard =>
    simp [marketSellLoop, if_neg hguard]

theorem marketSellLoop_remaining_nonneg (ord : Order) (remaining : Int) (gen : Nat)
    (levels notional : Int) (bids : List (Int × Level)) (h0 : 0 ≤ remaining) :
    0 ≤ (marketSellLoop ord remaining gen levels notional bids).remaining := by
  induction remaining, gen, levels, notional, bids using marketSellLoop.induct ord with
  | case1 r g lv nt => simpa [marketSellLoop] using h0
  | case2 r g lv nt p rest => simpa [marketSellLoop] using h0
  | case3 r g lv nt p a lvlTail rest hguard hnot =>
    simpa [marketSellLoop, if_pos hguard, if_pos hnot] using h0
  | case4 r g lv nt p a lvlTail rest hguard hnot hpop ih =>
    simp only [dite_eq_ite] at ih
    simp only [marketSellLoop, if_pos hguard, if_neg hnot, if_pos hpop]
    exact ih (by omega)
  | case5 r g lv nt p a lvlTail rest hguard hnot hpop =>
    simp only [marketSellLoop, if_pos hguard, if_neg hnot, if_neg hpop]
    omega
  | case6 r g lv nt p a lvlTail rest hguard =>
    simpa [marketSellLoop, if_neg hguard] using h0

theorem marketSellLoop_prices_sublist (ord : Order) (remaining : Int) (gen : Nat)
    (levels notional : Int) (bids : List (Int × Level)) :
    List.Sublist (sidePrices (marketSellLoop ord remaining gen levels notional bids).levels)
      (sidePrices bids) := by
  induction remaining, gen, levels, notional, bids using marketSellLoop.induct ord with
  | case1 r g lv nt => simp [marketSellLoop]
  | case2 r g lv nt p rest => simp [marketSellLoop]
  | case3 r g lv nt p a lvlTail rest hguard hnot =>
    simp [marketSellLoop, if_pos hguard, if_pos hnot]
  | case4 r g lv nt p a lvlTail rest hguard hnot hpop ih =>
    simp only [dite_eq_ite] at ih
    simp only [marketSellLoop, if_pos hguard, if_neg hnot, if_pos hpop]
    refine ih.trans ?_
    by_cases he : lvlTail.isEmpty
    · simp only [he, if_pos, sidePrices, List.map_cons]
      exact List.sublist_cons_self p _
    · simp only [he, if_neg, Bool.false_eq_true, not_false_iff, sidePrices, List.map_cons]
      exact List.Sublist.refl _
  | case5 r g lv nt p a lvlTail rest hguard hnot hpop =>
    simp only [marketSellLoop, if_pos hguard, if_neg hnot, if_neg hpop, sidePrices,
      List.map_cons]
    exact List.Sublist.refl _
  | case6 r g lv nt p a lvlTail rest hguard =>
    simp [marketSellLoop, if_neg hguard]

theorem marketSellLoop_ids_sublist (ord : Order) (remaining : Int) (gen : Nat)
    (levels notional : Int) (bids : List (Int × Level)) :
    List.Sublist (sideIds (marketSellLoop ord remaining gen levels notional bids).levels)
      (sideIds bids) := by
  induction remaining, gen, levels, notional, bids using marketSellLoop.induct ord with
  | case1 r g lv nt => simp [marketSellLoop]
  | case2 r g lv nt p rest => simp [marketSellLoop]
  | case3 r g lv nt p a lvlTail rest hguard hnot =>
    simp [marketSellLoop, if_pos hguard, if_pos hnot]
  | case4 r g lv nt p a lvlTail rest hguard hnot hpop ih =>
    simp only [dite_eq_ite] at ih
    simp only [marketSellLoop, if_pos hguard, if_neg hnot, if_pos hpop]
    refine ih.trans ?_
    by_cases he : lvlTail.isEmpty
    · have : lvlTail = [] := List.isEmpty_iff.mp he
      subst this
      simp only [he, if_pos, sideIds, List.map_cons, List.map_nil, List.nil_append]
      exact List.sublist_cons_self a.id _
    · simp only [he, if_neg, Bool.false_eq_true, not_false_iff, sideIds, List.map_cons,
        List.cons_append]
      exact List.sublist_cons_self a.id _
  | case5 r g lv nt p a lvlTail rest hguard hnot hpop =>
    simp only [marketSellLoop, if_pos hguard, if_neg hnot, if_neg hpop, sideIds,
      List.map_cons, List.cons_append]
    exact List.Sublist.refl _
  | case6 r g lv nt p a lvlTail rest hguard =>
    simp [marketSellLoop, if_neg hguard]

theorem marketSellLoop_noEmpty (ord : Order) (remaining : Int) (gen : Nat)
    (levels notional : Int) (bids : List (Int × Level)) (hNE : NoEmptyLevels bids) :
    NoEmptyLevels (marketSellLoop ord remaining gen levels notional bids).levels := by
  induction remaining, gen, levels, notional, bids using marketSellLoop.induct ord with
  | case1 r g lv nt => simp [marketSellLoop, NoEmptyLevels]
  | case2 r g lv nt p rest => exact absurd rfl (hNE (p, []) (by simp))
  | case3 r g lv nt p a lvlTail rest hguard hnot =>
    simpa [marketSellLoop, if_pos hguard, if_pos hnot] using hNE
  | case4 r g lv nt p a lvlTail rest hguard hnot hpop ih =>
    simp only [dite_eq_ite] at ih
    have hrest : NoEmptyLevels rest := fun x hx => hNE x (List.mem_cons_of_mem _ hx)
    simp only [marketSellLoop, if_pos hguard, if_neg hnot, if_pos hpop]
    apply ih
    by_cases he : lvlTail.isEmpty
    · simpa [he] using hrest
    · simp only [he, if_neg, Bool.false_eq_true, not_false_iff]
      intro x hx
      rcases List.mem_cons.mp hx with h | h
      · subst h
        simpa [List.isEmpty_iff] using he
      · exact hrest x h
  | case5 r g lv nt p a lvlTail rest hguard hnot hpop =>
    simp only [marketSellLoop, if_pos hguard, if_neg hnot, if_neg hpop]
    intro x hx
    rcases List.mem_cons.mp hx with h | h
    · subst h; simp
    · exact hNE x (List.mem_cons_of_mem _ h)
  | case6 r g lv nt p a lvlTail rest hguard =>
    simpa [marketSellLoop, if_neg hguard] using hNE

/-! # Claim theorems -/

/-- C1: the spec requires a marketable post-only limit to be rejected without
matching, but `Shard::processLimit` never reads `Order.postOnly`.  Against a
resting ask at price 100, a post-only buy limit at 100 for quantity 5 matches
fully: one trade of quantity 5 and one `Exec` event are emitted (no `Reject`),
and the resting ask is consumed. -/
theorem postOnly_marketable_limit_trades :
    ((shardStep (shardStep {} restingAsk100).1 postOnlyBuy100).2.1.map Trade.qty) = [5] ∧
    ((shardStep (shardStep {} restingAsk100).1 postOnlyBuy100).2.2.map Event.type)
      = [EventType.Exec] ∧
    (shardStep (shardStep {} restingAsk100).1 postOnlyBuy100).1.book = {} := by
  refine ⟨?_, ?_, ?_⟩ <;>
    simp [shardStep, processLimit, processMarket, shouldRejectFOK, availableAskUpTo,
      availableBidDownTo, availAsc, availDesc, matchLimitBuy, matchLimitSell, matchBuyLoop,
      matchSellLoop, handleIOCPost, handleCancel, handleReplace, replaceById, cancelById,
      removeByIdSide, removeFirst, addBid, addAsk, insertAsc, insertDesc, execEvent,
      restingAsk100, postOnlyBuy100]

/-- C2: the spec requires the replacement to copy the original resting order
where not overridden (`newQty = 0` keeps the original quantity 10), but
`Shard::handleReplace` copies the incoming Replace record instead: replacing the
resting bid id 1 (price 99, qty 10) with newPrice 100, newQty 0 leaves one bid
level at 100 whose single order has id 2 and quantity 0 (the Replace record's
own quantity), not 10; no trade is emitted. -/
theorem replace_keeps_request_qty_not_original :
    ((shardRun {} [restingBid99, replaceTo100]).book.bids.map
        (fun pl => (pl.1, pl.2.map (fun o => (o.id, o.qty))))) = [((100 : Int), [(2, (0 : Int))])] ∧
    (shardStep (shardStep {} restingBid99).1 replaceTo100).2.1 = [] := by
  refine ⟨?_, ?_⟩ <;>
    simp [shardRun, shardStep, processLimit, processMarket, shouldRejectFOK, availableAskUpTo,
      availableBidDownTo, availAsc, availDesc, matchLimitBuy, matchLimitSell, matchBuyLoop,
      matchSellLoop, handleIOCPost, handleCancel, handleReplace, replaceById, cancelById,
      removeByIdSide, removeFirst, addBid, addAsk, insertAsc, insertDesc,
      restingBid99, replaceTo100]

/-- C3 counterexample: the `RingBuffer` constructor performs no power-of-two
check.  Capacity 3 is not a power of two, yet construction succeeds with
capacity 3 and the resulting single-producer ring accepts an enqueue — a usable
ring, contradicting the claim that construction fails fast. -/
theorem ringBuffer_accepts_non_power_of_two_capacity :
    isPowerOfTwo 3 = false ∧
    (RingBuffer.init Nat 3 ProducerMode.Single).capacity = 3 ∧
    ((RingBuffer.init Nat 3 ProducerMode.Single).tryEnqueue 7).isSome = true := by
  refine ⟨by decide, rfl, by decide⟩

/-- C3 (amended): the power-of-two requirement is enforced fail-fast at
`MatchingEngine` construction (`std::invalid_argument` exactly when the ring
capacity is not a power of two), not in the `RingBuffer` constructor: the ring
constructor accepts any capacity, and any positive-capacity single-producer
ring accepts an enqueue. -/
theorem power_of_two_enforced_at_engine_not_ring :
    ∀ numShards cap : Nat,
      (engineCreate numShards cap
        = if isPowerOfTwo cap then Except.ok ⟨numShards, cap⟩
          else Except.error "ringCapacity must be power of two for SPSC ring") ∧
      ∀ x : Nat, 0 < cap →
        ((RingBuffer.init Nat cap ProducerMode.Single).tryEnqueue x).isSome = true := by
  intro n cap
  constructor
  · by_cases h : isPowerOfTwo cap <;> simp [engineCreate, h]
  · intro x hcap
    have hocc : (0 + word64 - 0) % word64 = 0 := by
      simp [word64]
    simp only [RingBuffer.tryEnqueue, RingBuffer.init, hocc]
    simp only [ne_eq, not_true_eq_false, if_neg, if_false]
    have : ¬(0 ≥ cap) := by omega
    simp [this]

theorem power_of_two_enforced_at_engine_not_ring_witness :
    ((RingBuffer.init Nat 3 ProducerMode.Single).tryEnqueue 7).isSome = true :=
  (power_of_two_enforced_at_engine_not_ring 1 3).2 7 (by decide)

/-- C5 counterexample: `Shard::handleReplace` inserts the replacement without
matching, so a Replace can cross the book: rest an ask at 100 and a bid at 90,
then replace the bid to price 110 — the book ends with best bid 110 above best
ask 100, both sides nonempty. -/
theorem replace_can_cross_book :
    (shardRun {} [restingAsk100, bid90, replaceTo110]).book.bids ≠ [] ∧
    (shardRun {} [restingAsk100, bid90, replaceTo110]).book.asks ≠ [] ∧
    bestAsk (shardRun {} [restingAsk100, bid90, replaceTo110]).book
      < bestBid (shardRun {} [restingAsk100, bid90, replaceTo110]).book := by
  refine ⟨?_, ?_, ?_⟩ <;>
    simp [shardRun, shardStep, processLimit, processMarket, shouldRejectFOK, availableAskUpTo,
      availableBidDownTo, availAsc, availDesc, matchLimitBuy, matchLimitSell, matchBuyLoop,
      matchSellLoop, handleIOCPost, handleCancel, handleReplace, replaceById, cancelById,
      removeByIdSide, removeFirst, addBid, addAsk, insertAsc, insertDesc, bestBid, bestAsk,
      restingAsk100, bid90, replaceTo110]

/-- C7 counterexample: the claim says the residual (qty − matched) is 0 for IOC
orders, but a partially filled IOC has a positive residual that is discarded:
an IOC buy for 5 against a single resting ask of quantity 1 matches 1, so the
residual is 4 ≠ 0 (and nothing rests: the book is empty afterwards). -/
theorem ioc_partial_fill_residual_nonzero :
    iocBuy205.tif = TIF.IOC ∧ iocBuy205.qty = 5 ∧
    (((shardStep (shardStep {} restingAsk200).1 iocBuy205).2.1.map Trade.qty).sum = 1) ∧
    iocBuy205.qty - (((shardStep (shardStep {} restingAsk200).1 iocBuy205).2.1.map
      Trade.qty).sum) ≠ 0 ∧
    (shardStep (shardStep {} restingAsk200).1 iocBuy205).1.book = {} := by
  refine ⟨rfl, rfl, ?_, ?_, ?_⟩ <;>
    simp [shardStep, processLimit, processMarket, shouldRejectFOK, availableAskUpTo,
      availableBidDownTo, availAsc, availDesc, matchLimitBuy, matchLimitSell, matchBuyLoop,
      matchSellLoop, handleIOCPost, handleCancel, handleReplace, replaceById, cancelById,
      removeByIdSide, removeFirst, addBid, addAsk, insertAsc, insertDesc,
      restingAsk200, iocBuy205]

/-- C9: a ring constructed with `ProducerMode::Multi` can never hold an
element: `tryEnqueue` checks the mode first and returns false for every item
regardless of occupancy, so every dequeue also fails and the ring state never
changes from its initial state. -/
theorem multi_producer_ring_permanently_empty {α : Type} [Inhabited α] (cap : Nat)
    (ops : List (RingOp α)) :
    (ringRun (RingBuffer.init α cap ProducerMode.Multi) ops).2
      = ops.map (fun op => match op with
          | RingOp.enq _ => RingOut.enqFail
          | RingOp.deq => RingOut.deqFail) ∧
    (ringRun (RingBuffer.init α cap ProducerMode.Multi) ops).1
      = RingBuffer.init α cap ProducerMode.Multi := by
  have key : ∀ (l : List (RingOp α)) (r : RingBuffer α),
      r.mode = ProducerMode.Multi → r.head = r.tail →
      (ringRun r l).2 = l.map (fun op => match op with
          | RingOp.enq _ => RingOut.enqFail
          | RingOp.deq => RingOut.deqFail) ∧ (ringRun r l).1 = r := by
    intro l
    induction l with
    | nil => intro r hm hht; simp [ringRun]
    | cons op rest ih =>
      intro r hm hht
      cases op with
      | enq x =>
        have he : r.tryEnqueue x = none := by
          simp [RingBuffer.tryEnqueue, hm]
        simp only [ringRun, he, List.map_cons]
        obtain ⟨h1, h2⟩ := ih r hm hht
        exact ⟨by rw [h1], by rw [h2]⟩
      | deq =>
        have hd : r.tryDequeue = none := by
          simp [RingBuffer.tryDequeue, hht]
        simp only [ringRun, hd, List.map_cons]
        obtain ⟨h1, h2⟩ := ih r hm hht
        exact ⟨by rw [h1], by rw [h2]⟩
  exact key ops _ rfl rfl

/-- C10: `OrderBook::bestBid` and `bestAsk` return −1 exactly when the
respective side is empty, and otherwise the maximum resting bid price
(respectively minimum resting ask price); and since prices are signed, a book
whose only bid rests at −1 cents is nonempty yet reports the same −1 as the
empty book — the sentinel is indistinguishable from a genuine price of −1. -/
theorem bestBid_bestAsk_sentinel :
    (∀ b : OrderBook, b.bids = [] → bestBid b = -1) ∧
    (∀ b : OrderBook, b.asks = [] → bestAsk b = -1) ∧
    (∀ b : OrderBook, List.Sorted (· > ·) (sidePrices b.bids) → b.bids ≠ [] →
      bestBid b ∈ sidePrices b.bids ∧ ∀ p ∈ sidePrices b.bids, p ≤ bestBid b) ∧
    (∀ b : OrderBook, List.Sorted (· < ·) (sidePrices b.asks) → b.asks ≠ [] →
      bestAsk b ∈ sidePrices b.asks ∧ ∀ p ∈ sidePrices b.asks, bestAsk b ≤ p) ∧
    ((addBid {} negPriceBid).bids ≠ [] ∧ bestBid (addBid {} negPriceBid) = -1 ∧
      bestBid {} = -1) := by
  refine ⟨?_, ?_, ?_, ?_, ?_⟩
  · intro b hb; simp [bestBid, hb]
  · intro b hb; simp [bestAsk, hb]
  · intro b hs hne
    match hb : b.bids with
    | [] => exact absurd hb hne
    | (p, lvl) :: rest =>
      rw [hb] at hs
      simp only [sidePrices, List.map_cons, List.sorted_cons] at hs
      refine ⟨?_, ?_⟩
      · simp [bestBid, hb, sidePrices]
      · intro q hq
        simp only [sidePrices, List.map_cons, List.mem_cons] at hq
        simp only [bestBid, hb]
        rcases hq with h | h
        · omega
        · have := hs.1 q h
          omega
  · intro b hs hne
    match hb : b.asks with
    | [] => exact absurd hb hne
    | (p, lvl) :: rest =>
      rw [hb] at hs
      simp only [sidePrices, List.map_cons, List.sorted_cons] at hs
      refine ⟨?_, ?_⟩
      · simp [bestAsk, hb, sidePrices]
      · intro q hq
        simp only [sidePrices, List.map_cons, List.mem_cons] at hq
        simp only [bestAsk, hb]
        rcases hq with h | h
        · omega
        · have := hs.1 q h
          omega
  · refine ⟨?_, ?_, rfl⟩ <;> simp [addBid, insertDesc, bestBid, negPriceBid]

theorem bestBid_bestAsk_sentinel_witness :
    bestBid (addBid {} negPriceBid) ∈ sidePrices (addBid {} negPriceBid).bids ∧
    ∀ p ∈ sidePrices (addBid {} negPriceBid).bids, p ≤ bestBid (addBid {} negPriceBid) :=
  bestBid_bestAsk_sentinel.2.2.1 (addBid {} negPriceBid)
    (by simp [addBid, insertDesc, negPriceBid, sidePrices])
    (by simp [addBid, insertDesc, negPriceBid])

/-- C6: when the symbol's trading status is not Open, the session gate lets a
Cancel proceed against the book, rejects every other operation with exactly one
`Reject` event and an unchanged book, and increments the processed counter
exactly once either way. -/
theorem session_gate_cancel_proceeds_others_reject (st : ShardState) (ord : Order)
    (h : st.status ≠ TradingStatus.Open) :
    (shardStep st ord).1.processed = st.processed + 1 ∧
    (ord.op = Op.Cancel →
      shardStep st ord
        = ({ st with book := handleCancel st.book ord, processed := st.processed + 1 },
            [], [])) ∧
    (ord.op ≠ Op.Cancel →
      shardStep st ord = ({ st with processed := st.processed + 1 }, [], [rejectEvent ord])) := by
  refine ⟨?_, ?_, ?_⟩
  · by_cases hc : ord.op = Op.Cancel <;> simp [shardStep, h, hc]
  · intro hc; simp [shardStep, h, hc]
  · intro hc; simp [shardStep, h, hc]

theorem session_gate_cancel_proceeds_others_reject_witness :
    (shardStep haltedState { id := 5 }).1.processed = haltedState.processed + 1 :=
  (session_gate_cancel_proceeds_others_reject haltedState { id := 5 } (by decide)).1

/-- C4: for a New FOK limit processed with status Open, the order is rejected
(one `Reject`, no trade, no `Exec`, book unchanged) exactly when the resting
quantity marketable against it — `availableAskUpTo(price)` for a buy,
`availableBidDownTo(price)` for a sell — is strictly less than its quantity;
otherwise it is fully filled: the trade quantities and the `Exec` event
quantities each sum to the order's quantity, every emitted event is an `Exec`,
and nothing is posted (the surviving book ids are among the original ones). -/
theorem fok_reject_iff_infeasible_else_full_fill (st : ShardState) (ord : Order)
    (hst : st.status = TradingStatus.Open) (hop : ord.op = Op.New)
    (hty : ord.type = OrdType.LIMIT) (htif : ord.tif = TIF.FOK) (hq : 0 ≤ ord.qty)
    (hNEb : NoEmptyLevels st.book.bids) (hNEa : NoEmptyLevels st.book.asks) :
    ((if ord.side = Side.BUY then availableAskUpTo st.book ord.priceCents
       else availableBidDownTo st.book ord.priceCents) < ord.qty →
      (shardStep st ord).1.book = st.book ∧ (shardStep st ord).2.1 = [] ∧
      (shardStep st ord).2.2 = [rejectEvent ord]) ∧
    (ord.qty ≤ (if ord.side = Side.BUY then availableAskUpTo st.book ord.priceCents
       else availableBidDownTo st.book ord.priceCents) →
      ((shardStep st ord).2.1.map Trade.qty).sum = ord.qty ∧
      (∀ e ∈ (shardStep st ord).2.2, e.type = EventType.Exec) ∧
      ((shardStep st ord).2.2.map Event.qty).sum = ord.qty ∧
      ∀ x ∈ bookIds (shardStep st ord).1.book, x ∈ bookIds st.book) := by
  cases hside : ord.side with
  | BUY =>
    by_cases hlt : availableAskUpTo st.book ord.priceCents < ord.qty
    · have hrej : shouldRejectFOK ord st.book = true := by
        simp [shouldRejectFOK, htif, hside, hlt]
      have hSS : shardStep st ord = ({ st with processed := st.processed + 1 },
          [], [rejectEvent ord]) := by
        simp [shardStep, hst, hop, hty, processLimit, hrej]
      rw [hSS]
      exact ⟨fun _ => ⟨rfl, rfl, rfl⟩, fun hge => by simp [hside] at hge; omega⟩
    · have hge : ord.qty ≤ availableAskUpTo st.book ord.priceCents := by omega
      have hrej : shouldRejectFOK ord st.book = false := by
        simp [shouldRejectFOK, htif, hside]
        omega
      have hfull : (matchBuyLoop ord ord.qty st.tradeIdGen st.book.asks).remaining = 0 :=
        matchBuyLoop_full_fill ord ord.qty st.tradeIdGen st.book.asks hNEa hq hge
      have hSS : shardStep st ord =
          ({ st with
              book := { st.book with
                asks := (matchBuyLoop ord ord.qty st.tradeIdGen st.book.asks).levels },
              tradeIdGen := (matchBuyLoop ord ord.qty st.tradeIdGen st.book.asks).gen,
              processed := st.processed + 1 },
            (matchBuyLoop ord ord.qty st.tradeIdGen st.book.asks).trades,
            (matchBuyLoop ord ord.qty st.tradeIdGen st.book.asks).events) := by
        simp [shardStep, hst, hop, hty, processLimit, hrej, hside, matchLimitBuy, hfull,
          handleIOCPost, htif]
      rw [hSS]
      refine ⟨fun hlt2 => by simp [hside] at hlt2; omega, fun _ => ⟨?_, ?_, ?_, ?_⟩⟩
      · rw [matchBuyLoop_trade_sum, hfull]
        ring
      · exact matchBuyLoop_events_exec ord ord.qty st.tradeIdGen st.book.asks
      · rw [matchBuyLoop_events_qty_sum, hfull]
        ring
      · intro x hx
        simp only [bookIds, List.mem_append] at hx ⊢
        rcases hx with h | h
        · exact Or.inl h
        · exact Or.inr ((matchBuyLoop_ids_sublist ord ord.qty st.tradeIdGen
            st.book.asks).subset h)
  | SELL =>
    by_cases hlt : availableBidDownTo st.book ord.priceCents < ord.qty
    · have hrej : shouldRejectFOK ord st.book = true := by
        simp [shouldRejectFOK, htif, hside, hlt]
      have hSS : shardStep st ord = ({ st with processed := st.processed + 1 },
          [], [rejectEvent ord]) := by
        simp [shardStep, hst, hop, hty, processLimit, hrej]
      rw [hSS]
      exact ⟨fun _ => ⟨rfl, rfl, rfl⟩, fun hge => by simp [hside] at hge; omega⟩
    · have hge : ord.qty ≤ availableBidDownTo st.book ord.priceCents := by omega
      have hrej : shouldRejectFOK ord st.book = false := by
        simp [shouldRejectFOK, htif, hside]
        omega
      have hfull : (matchSellLoop ord ord.qty st.tradeIdGen st.book.bids).remaining = 0 :=
        matchSellLoop_full_fill ord ord.qty st.tradeIdGen st.book.bids hNEb hq hge
      have hSS : shardStep st ord =
          ({ st with
              book := { st.book with
                bids := (matchSellLoop ord ord.qty st.tradeIdGen st.book.bids).levels },
              tradeIdGen := (matchSellLoop ord ord.qty st.tradeIdGen st.book.bids).gen,
              processed := st.processed + 1 },
            (matchSellLoop ord ord.qty st.tradeIdGen st.book.bids).trades,
            (matchSellLoop ord ord.qty st.tradeIdGen st.book.bids).events) := by
        simp [shardStep, hst, hop, hty, processLimit, hrej, hside, matchLimitSell, hfull,
          handleIOCPost, htif]
      rw [hSS]
      refine ⟨fun hlt2 => by simp [hside] at hlt2; omega, fun _ => ⟨?_, ?_, ?_, ?_⟩⟩
      · rw [matchSellLoop_trade_sum, hfull]
        ring
      · exact matchSellLoop_events_exec ord ord.qty st.tradeIdGen st.book.bids
      · rw [matchSellLoop_events_qty_sum, hfull]
        ring
      · intro x hx
        simp only [bookIds, List.mem_append] at hx ⊢
        rcases hx with h | h
        · exact Or.inl ((matchSellLoop_ids_sublist ord ord.qty st.tradeIdGen
            st.book.bids).subset h)
        · exact Or.inr h

theorem fok_reject_iff_infeasible_else_full_fill_witness :
    (shardStep fokState fokBuy).1.book = fokState.book ∧
    (shardStep fokState fokBuy).2.1 = [] ∧
    (shardStep fokState fokBuy).2.2 = [rejectEvent fokBuy] :=
  (fok_reject_iff_infeasible_else_full_fill fokState fokBuy rfl rfl rfl rfl (by decide)
      (by simp [NoEmptyLevels, fokState]) (by simp [NoEmptyLevels, fokState])).1
    (by decide)

/-! # Preservation of well-formedness and uncrossedness (for C5) -/

theorem bookWF_uncrossed_cancel (b : OrderBook) (orderId : Nat)
    (hwf : BookWF b) (hunc : Uncrossed b) :
    BookWF (cancelById b orderId).2 ∧ Uncrossed (cancelById b orderId).2 := by
  obtain ⟨hpb, hpa, _, _, hnb, hna⟩ := cancelById_book_sublists b orderId
  refine ⟨⟨hwf.bidsSorted.sublist hpb, hwf.asksSorted.sublist hpa,
    hnb hwf.bidsNE, hna hwf.asksNE⟩, ?_⟩
  intro p hp q hq
  exact hunc p (hpb.subset hp) q (hpa.subset hq)

theorem bookWF_uncrossed_handleIOC (o : Order) (b : OrderBook)
    (hwf : BookWF b) (hunc : Uncrossed b) :
    BookWF (handleIOCPost o b) ∧ Uncrossed (handleIOCPost o b) := by
  unfold handleIOCPost
  by_cases h : o.tif = TIF.IOC
  · simp only [h, if_pos]
    exact bookWF_uncrossed_cancel b o.id hwf hunc
  · simp only [h, if_neg, if_false]
    exact ⟨hwf, hunc⟩

theorem shardStep_preserves_wf_unc (st : ShardState) (o : Order) (ho : o.op ≠ Op.Replace)
    (hwf : BookWF st.book) (hunc : Uncrossed st.book) :
    BookWF (shardStep st o).1.book ∧ Uncrossed (shardStep st o).1.book := by
  by_cases hst : st.status = TradingStatus.Open
  · by_cases hc : o.op = Op.Cancel
    · have hb : (shardStep st o).1.book = (cancelById st.book o.targetId).2 := by
        simp [shardStep, hst, hc, handleCancel]
      rw [hb]
      exact bookWF_uncrossed_cancel st.book o.targetId hwf hunc
    · have hnew : o.op = Op.New := by
        cases hop : o.op
        · rfl
        · exact absurd hop hc
        · exact absurd hop ho
      cases hty : o.type with
      | LIMIT =>
        by_cases hrej : shouldRejectFOK o st.book = true
        · have hb : (shardStep st o).1.book = st.book := by
            simp [shardStep, hst, hc, hnew, ho, hty, processLimit, hrej]
          rw [hb]
          exact ⟨hwf, hunc⟩
        · replace hrej : shouldRejectFOK o st.book = false := by
            simpa using hrej
          cases hside : o.side with
          | BUY =>
            have hb : (shardStep st o).1.book
                = handleIOCPost o
                    (if (matchBuyLoop o o.qty st.tradeIdGen st.book.asks).remaining > 0 then
                      addBid { st.book with
                          asks := (matchBuyLoop o o.qty st.tradeIdGen st.book.asks).levels }
                        { o with qty := (matchBuyLoop o o.qty st.tradeIdGen st.book.asks).remaining }
                    else { st.book with
                        asks := (matchBuyLoop o o.qty st.tradeIdGen st.book.asks).levels }) := by
              by_cases hpos : (matchBuyLoop o o.qty st.tradeIdGen st.book.asks).remaining > 0 <;>
                simp [shardStep, hst, hc, hnew, ho, hty, processLimit, hrej, hside,
                  matchLimitBuy, hpos]
            rw [hb]
            have hwf2 : BookWF { st.book with
                asks := (matchBuyLoop o o.qty st.tradeIdGen st.book.asks).levels } :=
              ⟨hwf.bidsSorted,
                hwf.asksSorted.sublist (matchBuyLoop_prices_sublist o o.qty st.tradeIdGen
                  st.book.asks),
                hwf.bidsNE,
                matchBuyLoop_noEmpty o o.qty st.tradeIdGen st.book.asks hwf.asksNE⟩
            have hunc2 : Uncrossed { st.book with
                asks := (matchBuyLoop o o.qty st.tradeIdGen st.book.asks).levels } := by
              intro p hp q hq
              exact hunc p hp q
                ((matchBuyLoop_prices_sublist o o.qty st.tradeIdGen st.book.asks).subset hq)
            by_cases hpos : (matchBuyLoop o o.qty st.tradeIdGen st.book.asks).remaining > 0
            · simp only [hpos, if_pos]
              apply bookWF_uncrossed_handleIOC
              · exact ⟨sorted_insertDesc hwf2.bidsSorted, hwf2.asksSorted,
                  noEmpty_insertDesc hwf2.bidsNE, hwf2.asksNE⟩
              · intro p hp q hq
                simp only [addBid] at hp hq
                rcases mem_sidePrices_insertDesc hp with h | h
                · subst h
                  exact matchBuyLoop_residual_prices o o.qty st.tradeIdGen st.book.asks
                    hwf.asksNE hwf.asksSorted hpos q hq
                · exact hunc2 p h q hq
            · simp only [hpos, if_neg, if_false]
              exact bookWF_uncrossed_handleIOC o _ hwf2 hunc2
          | SELL =>
            have hb : (shardStep st o).1.book
                = handleIOCPost o
                    (if (matchSellLoop o o.qty st.tradeIdGen st.book.bids).remaining > 0 then
                      addAsk { st.book with
                          bids := (matchSellLoop o o.qty st.tradeIdGen st.book.bids).levels }
                        { o with qty := (matchSellLoop o o.qty st.tradeIdGen st.book.bids).remaining }
                    else { st.book with
                        bids := (matchSellLoop o o.qty st.tradeIdGen st.book.bids).levels }) := by
              by_cases hpos : (matchSellLoop o o.qty st.tradeIdGen st.book.bids).remaining > 0 <;>
                simp [shardStep, hst, hc, hnew, ho, hty, processLimit, hrej, hside,
                  matchLimitSell, hpos]
            rw [hb]
            have hwf2 : BookWF { st.book with
                bids := (matchSellLoop o o.qty st.tradeIdGen st.book.bids).levels } :=
              ⟨hwf.bidsSorted.sublist (matchSellLoop_prices_sublist o o.qty st.tradeIdGen
                  st.book.bids),
                hwf.asksSorted,
                matchSellLoop_noEmpty o o.qty st.tradeIdGen st.book.bids hwf.bidsNE,
                hwf.asksNE⟩
            have hunc2 : Uncrossed { st.book with
                bids := (matchSellLoop o o.qty st.tradeIdGen st.book.bids).levels } := by
              intro p hp q hq
              exact hunc p
                ((matchSellLoop_prices_sublist o o.qty st.tradeIdGen st.book.bids).subset hp)
                q hq
            by_cases hpos : (matchSellLoop o o.qty st.tradeIdGen st.book.bids).remaining > 0
            · simp only [hpos, if_pos]
              apply bookWF_uncrossed_handleIOC
              · exact ⟨hwf2.bidsSorted, sorted_insertAsc hwf2.asksSorted,
                  hwf2.bidsNE, noEmpty_insertAsc hwf2.asksNE⟩
              · intro p hp q hq
                simp only [addAsk] at hp hq
                rcases mem_sidePrices_insertAsc hq with h | h
                · subst h
                  exact matchSellLoop_residual_prices o o.qty st.tradeIdGen st.book.bids
                    hwf.bidsNE hwf.bidsSorted hpos p hp
                · exact hunc2 p hp q h
            · simp only [hpos, if_neg, if_false]
              exact bookWF_uncrossed_handleIOC o _ hwf2 hunc2
      | MARKET =>
        cases hside : o.side with
        | BUY =>
          have hb : (shardStep st o).1.book = { st.book with
              asks := (marketBuyLoop o (min o.qty marketMaxQty) st.tradeIdGen 0 0
                st.book.asks).levels } := by
            simp [shardStep, hst, hc, hnew, ho, hty, processMarket, hside]
          rw [hb]
          refine ⟨⟨hwf.bidsSorted,
            hwf.asksSorted.sublist (marketBuyLoop_prices_sublist o _ st.tradeIdGen 0 0
              st.book.asks),
            hwf.bidsNE,
            marketBuyLoop_noEmpty o _ st.tradeIdGen 0 0 st.book.asks hwf.asksNE⟩, ?_⟩
          intro p hp q hq
          exact hunc p hp q
            ((marketBuyLoop_prices_sublist o _ st.tradeIdGen 0 0 st.book.asks).subset hq)
        | SELL =>
          have hb : (shardStep st o).1.book = { st.book with
              bids := (marketSellLoop o (min o.qty marketMaxQty) st.tradeIdGen 0 0
                st.book.bids).levels } := by
            simp [shardStep, hst, hc, hnew, ho, hty, processMarket, hside]
          rw [hb]
          refine ⟨⟨hwf.bidsSorted.sublist (marketSellLoop_prices_sublist o _ st.tradeIdGen 0 0
              st.book.bids),
            hwf.asksSorted,
            marketSellLoop_noEmpty o _ st.tradeIdGen 0 0 st.book.bids hwf.bidsNE,
            hwf.asksNE⟩, ?_⟩
          intro p hp q hq
          exact hunc p
            ((marketSellLoop_prices_sublist o _ st.tradeIdGen 0 0 st.book.bids).subset hp)
            q hq
  · by_cases hc : o.op = Op.Cancel
    · have hb : (shardStep st o).1.book = (cancelById st.book o.targetId).2 := by
        simp [shardStep, hst, hc, handleCancel]
      rw [hb]
      exact bookWF_uncrossed_cancel st.book o.targetId hwf hunc
    · have hb : (shardStep st o).1.book = st.book := by
        simp [shardStep, hst, hc]
      rw [hb]
      exact ⟨hwf, hunc⟩

/-- C5 (amended): after any finite sequence of New and Cancel orders (no
Replace) applied to one order book through the shard dispatch, starting from an
empty book under any trading status, the book is never crossed: either a side
is empty or the best resting bid price is strictly below the best resting ask
price.  (The original claim over all operations fails: Replace re-inserts
without matching and can cross the book.) -/
theorem no_crossed_book_without_replace (status : TradingStatus) (ops : List Order)
    (hops : ∀ o ∈ ops, o.op ≠ Op.Replace) :
    (shardRun { status := status } ops).book.bids = [] ∨
    (shardRun { status := status } ops).book.asks = [] ∨
    bestBid (shardRun { status := status } ops).book
      < bestAsk (shardRun { status := status } ops).book := by
  have run : ∀ (l : List Order) (st : ShardState), (∀ o ∈ l, o.op ≠ Op.Replace) →
      BookWF st.book → Uncrossed st.book →
      BookWF (shardRun st l).book ∧ Uncrossed (shardRun st l).book := by
    intro l
    induction l with
    | nil =>
      intro st _ hwf hunc
      exact ⟨hwf, hunc⟩
    | cons o rest ih =>
      intro st hall hwf hunc
      obtain ⟨hwf2, hunc2⟩ := shardStep_preserves_wf_unc st o (hall o (by simp)) hwf hunc
      exact ih _ (fun x hx => hall x (List.mem_cons_of_mem _ hx)) hwf2 hunc2
  obtain ⟨hwf, hunc⟩ := run ops { status := status } hops
    ⟨by simp [sidePrices], by simp [sidePrices],
      by simp [NoEmptyLevels], by simp [NoEmptyLevels]⟩
    (by intro p hp; simp [sidePrices] at hp)
  cases hbids : (shardRun { status := status } ops).book.bids with
  | nil => exact Or.inl rfl
  | cons pl rest =>
    cases hasks : (shardRun { status := status } ops).book.asks with
    | nil => exact Or.inr (Or.inl rfl)
    | cons ql rest2 =>
      refine Or.inr (Or.inr ?_)
      have hp : pl.1 ∈ sidePrices (shardRun { status := status } ops).book.bids := by
        simp [hbids, sidePrices]
      have hq : ql.1 ∈ sidePrices (shardRun { status := status } ops).book.asks := by
        simp [hasks, sidePrices]
      have := hunc pl.1 hp ql.1 hq
      simpa [bestBid, bestAsk, hbids, hasks] using this

theorem no_crossed_book_without_replace_witness :
    (shardRun { status := TradingStatus.Open } [restingAsk100, bid90]).book.bids = [] ∨
    (shardRun { status := TradingStatus.Open } [restingAsk100, bid90]).book.asks = [] ∨
    bestBid (shardRun { status := TradingStatus.Open } [restingAsk100, bid90]).book
      < bestAsk (shardRun { status := TradingStatus.Open } [restingAsk100, bid90]).book :=
  no_crossed_book_without_replace TradingStatus.Open [restingAsk100, bid90]
    (by intro o hw; fin_cases hw <;> decide)

/-- C7 (amended): for every New order processed with status Open, with a fresh
id and spec-valid nonnegative quantity: the total matched quantity over the
emitted trades is at most the order's quantity, with equality iff the residual
(qty − matched) is zero; a Day limit's positive residual is posted on the book
at the order's price for exactly the residual quantity; and an IOC limit or a
market order leaves nothing resting under the aggressor's id (an unfilled
IOC/market residual is discarded, not zero as the original claim stated). -/
theorem conservation_residual_amended (st : ShardState) (ord : Order)
    (hst : st.status = TradingStatus.Open) (hop : ord.op = Op.New) (hq : 0 ≤ ord.qty)
    (hNEb : NoEmptyLevels st.book.bids) (hNEa : NoEmptyLevels st.book.asks)
    (hid : ord.id ∉ bookIds st.book) :
    ((shardStep st ord).2.1.map Trade.qty).sum ≤ ord.qty ∧
    (((shardStep st ord).2.1.map Trade.qty).sum = ord.qty ↔
      ord.qty - ((shardStep st ord).2.1.map Trade.qty).sum = 0) ∧
    (ord.type = OrdType.LIMIT → ord.tif = TIF.Day →
      0 < ord.qty - ((shardStep st ord).2.1.map Trade.qty).sum →
      ∃ lvl, (ord.priceCents, lvl) ∈
          (if ord.side = Side.BUY then (shardStep st ord).1.book.bids
           else (shardStep st ord).1.book.asks) ∧
        { ord with qty := ord.qty - ((shardStep st ord).2.1.map Trade.qty).sum } ∈ lvl) ∧
    (ord.type = OrdType.LIMIT → ord.tif = TIF.IOC →
      ord.id ∉ bookIds (shardStep st ord).1.book) ∧
    (ord.type = OrdType.MARKET → ord.id ∉ bookIds (shardStep st ord).1.book) := by
  have hidb : ord.id ∉ sideIds st.book.bids := by
    simp only [bookIds, List.mem_append, not_or] at hid
    exact hid.1
  have hida : ord.id ∉ sideIds st.book.asks := by
    simp only [bookIds, List.mem_append, not_or] at hid
    exact hid.2
  cases hty : ord.type with
  | LIMIT =>
    by_cases hrej : shouldRejectFOK ord st.book = true
    · have hF : ord.tif = TIF.FOK := by
        by_contra hF
        simp [shouldRejectFOK, hF] at hrej
      have hSS : shardStep st ord = ({ st with processed := st.processed + 1 },
          [], [rejectEvent ord]) := by
        simp [shardStep, hst, hop, hty, processLimit, hrej]
      rw [hSS]
      refine ⟨by simpa using hq, by omega, ?_, ?_, ?_⟩
      · intro _ hday
        exact absurd (hday.symm.trans hF) (by decide)
      · intro _ hioc
        exact absurd (hioc.symm.trans hF) (by decide)
      · intro hmkt
        exact absurd hmkt (by decide)
    · replace hrej : shouldRejectFOK ord st.book = false := by simpa using hrej
      cases hside : ord.side with
      | BUY =>
        have hmatched : (((matchBuyLoop ord ord.qty st.tradeIdGen st.book.asks).trades.map
            Trade.qty).sum)
            = ord.qty - (matchBuyLoop ord ord.qty st.tradeIdGen st.book.asks).remaining :=
          matchBuyLoop_trade_sum ord ord.qty st.tradeIdGen st.book.asks
        have hnn : 0 ≤ (matchBuyLoop ord ord.qty st.tradeIdGen st.book.asks).remaining :=
          matchBuyLoop_remaining_nonneg ord ord.qty st.tradeIdGen st.book.asks hq
        have htr : (shardStep st ord).2.1
            = (matchBuyLoop ord ord.qty st.tradeIdGen st.book.asks).trades := by
          simp [shardStep, hst, hop, hty, processLimit, hrej, hside, matchLimitBuy]
        have hb : (shardStep st ord).1.book
            = handleIOCPost ord
                (if (matchBuyLoop ord ord.qty st.tradeIdGen st.book.asks).remaining > 0 then
                  addBid { st.book with
                      asks := (matchBuyLoop ord ord.qty st.tradeIdGen st.book.asks).levels }
                    { ord with
                      qty := (matchBuyLoop ord ord.qty st.tradeIdGen st.book.asks).remaining }
                else { st.book with
                    asks := (matchBuyLoop ord ord.qty st.tradeIdGen st.book.asks).levels }) := by
          by_cases hpos : (matchBuyLoop ord ord.qty st.tradeIdGen st.book.asks).remaining > 0 <;>
            simp [shardStep, hst, hop, hty, processLimit, hrej, hside, matchLimitBuy, hpos]
        rw [htr, hb]
        rw [hmatched]
        have hsub := matchBuyLoop_ids_sublist ord ord.qty st.tradeIdGen st.book.asks
        refine ⟨by omega, by omega, ?_, ?_, ?_⟩
        · intro _ hday hpos2
          have hpos : (matchBuyLoop ord ord.qty st.tradeIdGen st.book.asks).remaining > 0 := by
            omega
          have hIOCne : ¬(ord.tif = TIF.IOC) := by simp [hday]
          simp only [reduceIte]
          rw [if_pos hpos]
          simp only [handleIOCPost]
          rw [if_neg hIOCne]
          simp only [addBid]
          have := insertDesc_self_mem
            (o := { ord with
              qty := (matchBuyLoop ord ord.qty st.tradeIdGen st.book.asks).remaining })
            (s := st.book.bids)
          obtain ⟨lvl, hmem, ho⟩ := this
          refine ⟨lvl, hmem, ?_⟩
          have heq : ord.qty - (ord.qty -
              (matchBuyLoop ord ord.qty st.tradeIdGen st.book.asks).remaining)
            = (matchBuyLoop ord ord.qty st.tradeIdGen st.book.asks).remaining := by omega
          rw [heq]
          rw [hside, hty] at ho
          exact ho
        · intro _ hioc
          simp only [handleIOCPost]
          rw [if_pos hioc]
          by_cases hpos : (matchBuyLoop ord ord.qty st.tradeIdGen st.book.asks).remaining > 0
          · rw [if_pos hpos]
            have hcan := cancelById_addBid (b := { st.book with
                asks := (matchBuyLoop ord ord.qty st.tradeIdGen st.book.asks).levels })
              (o := { ord with
                qty := (matchBuyLoop ord ord.qty st.tradeIdGen st.book.asks).remaining })
              hNEb hidb
            rw [show ({ ord with
                qty := (matchBuyLoop ord ord.qty st.tradeIdGen st.book.asks).remaining
              } : Order).id = ord.id from rfl] at hcan
            rw [hcan]
            simp only [bookIds, List.mem_append, not_or]
            exact ⟨hidb, fun hmem => hida (hsub.subset hmem)⟩
          · rw [if_neg hpos]
            have hnotin : ord.id ∉ bookIds { st.book with
                asks := (matchBuyLoop ord ord.qty st.tradeIdGen st.book.asks).levels } := by
              simp only [bookIds, List.mem_append, not_or]
              exact ⟨hidb, fun hmem => hida (hsub.subset hmem)⟩
            rw [cancelById_not_found hnotin]
            exact hnotin
        · intro hmkt
          exact absurd hmkt (by decide)
      | SELL =>
        have hmatched : (((matchSellLoop ord ord.qty st.tradeIdGen st.book.bids).trades.map
            Trade.qty).sum)
            = ord.qty - (matchSellLoop ord ord.qty st.tradeIdGen st.book.bids).remaining :=
          matchSellLoop_trade_sum ord ord.qty st.tradeIdGen st.book.bids
        have hnn : 0 ≤ (matchSellLoop ord ord.qty st.tradeIdGen st.book.bids).remaining :=
          matchSellLoop_remaining_nonneg ord ord.qty st.tradeIdGen st.book.bids hq
        have htr : (shardStep st ord).2.1
            = (matchSellLoop ord ord.qty st.tradeIdGen st.book.bids).trades := by
          simp [shardStep, hst, hop, hty, processLimit, hrej, hside, matchLimitSell]
        have hb : (shardStep st ord).1.book
            = handleIOCPost ord
                (if (matchSellLoop ord ord.qty st.tradeIdGen st.book.bids).remaining > 0 then
                  addAsk { st.book with
                      bids := (matchSellLoop ord ord.qty st.tradeIdGen st.book.bids).levels }
                    { ord with
                      qty := (matchSellLoop ord ord.qty st.tradeIdGen st.book.bids).remaining }
                else { st.book with
                    bids := (matchSellLoop ord ord.qty st.tradeIdGen st.book.bids).levels }) := by
          by_cases hpos : (matchSellLoop ord ord.qty st.tradeIdGen st.book.bids).remaining > 0 <;>
            simp [shardStep, hst, hop, hty, processLimit, hrej, hside, matchLimitSell, hpos]
        rw [htr, hb]
        rw [hmatched]
        have hsub := matchSellLoop_ids_sublist ord ord.qty st.tradeIdGen st.book.bids
        refine ⟨by omega, by omega, ?_, ?_, ?_⟩
        · intro _ hday hpos2
          have hpos : (matchSellLoop ord ord.qty st.tradeIdGen st.book.bids).remaining > 0 := by
            omega
          have hIOCne : ¬(ord.tif = TIF.IOC) := by simp [hday]
          simp only [reduceIte]
          rw [if_pos hpos]
          simp only [handleIOCPost]
          rw [if_neg hIOCne]
          simp only [addAsk]
          have := insertAsc_self_mem
            (o := { ord with
              qty := (matchSellLoop ord ord.qty st.tradeIdGen st.book.bids).remaining })
            (s := st.book.asks)
          obtain ⟨lvl, hmem, ho⟩ := this
          refine ⟨lvl, hmem, ?_⟩
          have heq : ord.qty - (ord.qty -
              (matchSellLoop ord ord.qty st.tradeIdGen st.book.bids).remaining)
            = (matchSellLoop ord ord.qty st.tradeIdGen st.book.bids).remaining := by omega
          rw [heq]
          rw [hside, hty] at ho
          exact ho
        · intro _ hioc
          simp only [handleIOCPost]
          rw [if_pos hioc]
          by_cases hpos : (matchSellLoop ord ord.qty st.tradeIdGen st.book.bids).remaining > 0
          · rw [if_pos hpos]
            have hcan := cancelById_addAsk (b := { st.book with
                bids := (matchSellLoop ord ord.qty st.tradeIdGen st.book.bids).levels })
              (o := { ord with
                qty := (matchSellLoop ord ord.qty st.tradeIdGen st.book.bids).remaining })
              hNEa (fun hmem => hidb (hsub.subset hmem)) hida
            rw [show ({ ord with
                qty := (matchSellLoop ord ord.qty st.tradeIdGen st.book.bids).remaining
              } : Order).id = ord.id from rfl] at hcan
            rw [hcan]
            simp only [bookIds, List.mem_append, not_or]
            exact ⟨fun hmem => hidb (hsub.subset hmem), hida⟩
          · rw [if_neg hpos]
            have hnotin : ord.id ∉ bookIds { st.book with
                bids := (matchSellLoop ord ord.qty st.tradeIdGen st.book.bids).levels } := by
              simp only [bookIds, List.mem_append, not_or]
              exact ⟨fun hmem => hidb (hsub.subset hmem), hida⟩
            rw [cancelById_not_found hnotin]
            exact hnotin
        · intro hmkt
          exact absurd hmkt (by decide)
  | MARKET =>
    have hminq : 0 ≤ min ord.qty marketMaxQty := by
      have h1 : (0 : Int) ≤ marketMaxQty := by norm_num [marketMaxQty]
      exact le_min hq h1
    have hmin1 : min ord.qty marketMaxQty ≤ ord.qty := min_le_left _ _
    cases hside : ord.side with
    | BUY =>
      have hmatched := marketBuyLoop_trade_sum ord (min ord.qty marketMaxQty) st.tradeIdGen 0 0
        st.book.asks
      have hnn := marketBuyLoop_remaining_nonneg ord (min ord.qty marketMaxQty) st.tradeIdGen 0 0
        st.book.asks hminq
      have hsub := marketBuyLoop_ids_sublist ord (min ord.qty marketMaxQty) st.tradeIdGen 0 0
        st.book.asks
      have htr : (shardStep st ord).2.1
          = (marketBuyLoop ord (min ord.qty marketMaxQty) st.tradeIdGen 0 0
              st.book.asks).trades := by
        simp [shardStep, hst, hop, hty, processMarket, hside]
      have hb : (shardStep st ord).1.book = { st.book with
          asks := (marketBuyLoop ord (min ord.qty marketMaxQty) st.tradeIdGen 0 0
            st.book.asks).levels } := by
        simp [shardStep, hst, hop, hty, processMarket, hside]
      rw [htr, hb, hmatched]
      refine ⟨by omega, by omega, ?_, ?_, ?_⟩
      · intro hlim
        exact absurd hlim (by decide)
      · intro hlim
        exact absurd hlim (by decide)
      · intro _
        simp only [bookIds, List.mem_append, not_or]
        exact ⟨hidb, fun hmem => hida (hsub.subset hmem)⟩
    | SELL =>
      have hmatched := marketSellLoop_trade_sum ord (min ord.qty marketMaxQty) st.tradeIdGen 0 0
        st.book.bids
      have hnn := marketSellLoop_remaining_nonneg ord (min ord.qty marketMaxQty) st.tradeIdGen 0 0
        st.book.bids hminq
      have hsub := marketSellLoop_ids_sublist ord (min ord.qty marketMaxQty) st.tradeIdGen 0 0
        st.book.bids
      have htr : (shardStep st ord).2.1
          = (marketSellLoop ord (min ord.qty marketMaxQty) st.tradeIdGen 0 0
              st.book.bids).trades := by
        simp [shardStep, hst, hop, hty, processMarket, hside]
      have hb : (shardStep st ord).1.book = { st.book with
          bids := (marketSellLoop ord (min ord.qty marketMaxQty) st.tradeIdGen 0 0
            st.book.bids).levels } := by
        simp [shardStep, hst, hop, hty, processMarket, hside]
      rw [htr, hb, hmatched]
      refine ⟨by omega, by omega, ?_, ?_, ?_⟩
      · intro hlim
        exact absurd hlim (by decide)
      · intro hlim
        exact absurd hlim (by decide)
      · intro _
        simp only [bookIds, List.mem_append, not_or]
        exact ⟨fun hmem => hidb (hsub.subset hmem), hida⟩

theorem conservation_residual_amended_witness :
    ((shardStep thinAskState dayBuy100).2.1.map Trade.qty).sum ≤ dayBuy100.qty :=
  (conservation_residual_amended thinAskState dayBuy100 rfl rfl (by decide)
    (by simp [NoEmptyLevels, thinAskState]) (by simp [NoEmptyLevels, thinAskState])
    (by simp [bookIds, sideIds, thinAskState, dayBuy100])).1

/-! # Ring refinement lemmas (for C8) -/

theorem getD_set_self {α : Type} (l : List α) (i : Nat) (x d : α) (h : i < l.length) :
    (l.set i x).getD i d = x := by
  induction l generalizing i with
  | nil => simp at h
  | cons hd tl ih =>
    cases i with
    | zero => rfl
    | succ n =>
      simp only [List.set_cons_succ, List.getD_cons_succ]
      exact ih n (by simpa using h)

theorem getD_set_ne {α : Type} (l : List α) (i j : Nat) (x d : α) (h : i ≠ j) :
    (l.set i x).getD j d = l.getD j d := by
  induction l generalizing i j with
  | nil => simp
  | cons hd tl ih =>
    cases i with
    | zero =>
      cases j with
      | zero => exact absurd rfl h
      | succ m => rfl
    | succ n =>
      cases j with
      | zero => rfl
      | succ m =>
        simp only [List.set_cons_succ, List.getD_cons_succ]
        exact ih n m (by omega)

theorem getD_append_self {α : Type} (q : List α) (x d : α) :
    (q ++ [x]).getD q.length d = x := by
  induction q with
  | nil => rfl
  | cons hd tl ih => simp [ih]

theorem getD_append_left {α : Type} (q l2 : List α) (i : Nat) (d : α) (h : i < q.length) :
    (q ++ l2).getD i d = q.getD i d := by
  induction q generalizing i with
  | nil => simp at h
  | cons hd tl ih =>
    cases i with
    | zero => rfl
    | succ n =>
      simp only [List.cons_append, List.getD_cons_succ]
      exact ih n (by simpa using h)

theorem ringInv_tryEnqueue_full {α : Type} [Inhabited α] {k : Nat} {r : RingBuffer α}
    {q : List α} (hinv : RingInv k r q) (hfull : 2 ^ k ≤ q.length) (x : α) :
    r.tryEnqueue x = none := by
  obtain ⟨hcap, hk, hmask, hmode, hlen, htail, hhead, hqlen, hslots⟩ := hinv
  have hWk : (2 : Nat) ^ k ≤ 2 ^ 63 := Nat.pow_le_pow_right (by omega) hk
  have hocc : (r.head + word64 - r.tail) % word64 = q.length := by
    rw [hhead]
    simp only [word64] at *
    omega
  simp only [RingBuffer.tryEnqueue, hmode, ne_eq, not_true_eq_false, if_false, hocc, hcap]
  rw [if_pos hfull]

theorem ringInv_tryEnqueue_ok {α : Type} [Inhabited α] {k : Nat} {r : RingBuffer α}
    {q : List α} (hinv : RingInv k r q) (hroom : q.length < 2 ^ k) (x : α) :
    r.tryEnqueue x
      = some { r with buffer := r.buffer.set ((r.tail + q.length) % 2 ^ k) x,
                      head := (r.head + 1) % word64 } ∧
    RingInv k { r with buffer := r.buffer.set ((r.tail + q.length) % 2 ^ k) x,
                       head := (r.head + 1) % word64 } (q ++ [x]) := by
  obtain ⟨hcap, hk, hmask, hmode, hlen, htail, hhead, hqlen, hslots⟩ := hinv
  have hWk : (2 : Nat) ^ k ≤ 2 ^ 63 := Nat.pow_le_pow_right (by omega) hk
  have hkpos : 0 < (2 : Nat) ^ k := Nat.pos_pow_of_pos k (by omega)
  have hdvd : (2 : Nat) ^ k ∣ word64 := pow_dvd_pow 2 (by omega)
  have hocc : (r.head + word64 - r.tail) % word64 = q.length := by
    rw [hhead]
    simp only [word64] at *
    omega
  have hidx : r.head &&& r.mask = (r.tail + q.length) % 2 ^ k := by
    rw [hmask, Nat.and_pow_two_sub_one_eq_mod, hhead, Nat.mod_mod_of_dvd _ hdvd]
  have henq : r.tryEnqueue x
      = some { r with buffer := r.buffer.set ((r.tail + q.length) % 2 ^ k) x,
                      head := (r.head + 1) % word64 } := by
    simp only [RingBuffer.tryEnqueue, hmode, ne_eq, not_true_eq_false, if_false, hocc, hcap]
    rw [if_neg (by omega), hidx]
  refine ⟨henq, hcap, hk, hmask, hmode, by simpa using hlen, htail, ?_, ?_, ?_⟩
  · rw [hhead]
    simp only [List.length_append, List.length_cons, List.length_nil, Nat.mod_add_mod]
    congr 1
  · simp only [List.length_append, List.length_cons, List.length_nil]
    omega
  · intro i hi
    simp only [List.length_append, List.length_cons, List.length_nil] at hi
    by_cases hiq : i = q.length
    · subst hiq
      rw [getD_set_self _ _ _ _ (by rw [hlen]; exact Nat.mod_lt _ hkpos)]
      exact (getD_append_self q x default).symm
    · have hilt : i < q.length := by omega
      have hne : (r.tail + q.length) % 2 ^ k ≠ (r.tail + i) % 2 ^ k := by
        intro he
        have hmodeq : q.length ≡ i [MOD 2 ^ k] := Nat.ModEq.add_left_cancel' r.tail he
        have := hmodeq.eq_of_lt_of_lt hroom (by omega)
        omega
      rw [getD_set_ne _ _ _ _ _ hne, hslots i hilt, getD_append_left _ _ _ _ hilt]

theorem ringInv_tryDequeue_empty {α : Type} [Inhabited α] {k : Nat} {r : RingBuffer α}
    (hinv : RingInv k r []) : r.tryDequeue = none := by
  obtain ⟨hcap, hk, hmask, hmode, hlen, htail, hhead, hqlen, hslots⟩ := hinv
  have hht : r.head = r.tail := by
    rw [hhead]
    simp only [List.length_nil, Nat.add_zero]
    exact Nat.mod_eq_of_lt htail
  simp [RingBuffer.tryDequeue, hht]

theorem ringInv_tryDequeue_ok {α : Type} [Inhabited α] {k : Nat} {r : RingBuffer α}
    {y : α} {q2 : List α} (hinv : RingInv k r (y :: q2)) :
    r.tryDequeue = some (y, { r with tail := (r.tail + 1) % word64 }) ∧
    RingInv k { r with tail := (r.tail + 1) % word64 } q2 := by
  obtain ⟨hcap, hk, hmask, hmode, hlen, htail, hhead, hqlen, hslots⟩ := hinv
  have hWk : (2 : Nat) ^ k ≤ 2 ^ 63 := Nat.pow_le_pow_right (by omega) hk
  have hkpos : 0 < (2 : Nat) ^ k := Nat.pos_pow_of_pos k (by omega)
  have hdvd : (2 : Nat) ^ k ∣ word64 := pow_dvd_pow 2 (by omega)
  simp only [List.length_cons] at hhead hqlen
  have hht : r.head ≠ r.tail := by
    rw [hhead]
    have h64 : word64 = 18446744073709551616 := by norm_num [word64]
    rw [h64] at htail ⊢
    omega
  have hread : r.buffer.getD (r.tail &&& r.mask) default = y := by
    rw [hmask, Nat.and_pow_two_sub_one_eq_mod]
    have := hslots 0 (by simp)
    simpa using this
  have hdeq : r.tryDequeue = some (y, { r with tail := (r.tail + 1) % word64 }) := by
    simp only [RingBuffer.tryDequeue, hht, if_neg, if_false, hread]
  have htail2 : (r.tail + 1) % word64 < word64 := Nat.mod_lt _ (by simp [word64])
  refine ⟨hdeq, hcap, hk, hmask, hmode, hlen, htail2, ?_, by omega, ?_⟩
  · rw [hhead, Nat.mod_add_mod]
    congr 1
    omega
  · intro i hi
    have hmm : ((r.tail + 1) % word64 + i) % 2 ^ k = (r.tail + 1 + i) % 2 ^ k := by
      conv_rhs => rw [Nat.add_mod]
      rw [Nat.add_mod ((r.tail + 1) % word64) i, Nat.mod_mod_of_dvd _ hdvd]
    rw [hmm]
    have := hslots (i + 1) (by simp only [List.length_cons]; omega)
    simp only [List.getD_cons_succ] at this
    rw [show r.tail + 1 + i = r.tail + (i + 1) by omega]
    exact this

theorem ringInv_init {α : Type} [Inhabited α] (k : Nat) (hk : k ≤ 63) :
    RingInv k (RingBuffer.init α (2 ^ k) ProducerMode.Single) [] := by
  have hkpos : (2 : Nat) ^ k ≠ 0 := by positivity
  refine ⟨rfl, hk, ?_, rfl, ?_, ?_, ?_, ?_, ?_⟩
  · simp [RingBuffer.init, hkpos]
  · simp [RingBuffer.init]
  · simp [RingBuffer.init, word64]
  · simp [RingBuffer.init]
  · simp
  · intro i hi
    simp at hi

theorem ringRun_refines_queueRun {α : Type} [Inhabited α] (k : Nat)
    (ops : List (RingOp α)) :
    ∀ (r : RingBuffer α) (q : List α), RingInv k r q →
      (ringRun r ops).2 = (queueRun (2 ^ k) q ops).2 ∧
      RingInv k (ringRun r ops).1 (queueRun (2 ^ k) q ops).1 := by
  induction ops with
  | nil => intro r q hinv; exact ⟨rfl, hinv⟩
  | cons op rest ih =>
    intro r q hinv
    have hcap : r.capacity = 2 ^ k := hinv.1
    cases op with
    | enq x =>
      by_cases hroom : q.length < 2 ^ k
      · obtain ⟨henq, hinv2⟩ := ringInv_tryEnqueue_ok hinv hroom x
        obtain ⟨h1, h2⟩ := ih _ _ hinv2
        simp only [ringRun, henq, queueRun, if_neg (show ¬q.length ≥ 2 ^ k by omega)]
        exact ⟨by rw [h1], h2⟩
      · have henq := ringInv_tryEnqueue_full hinv (by omega) x
        obtain ⟨h1, h2⟩ := ih _ _ hinv
        simp only [ringRun, henq, queueRun, if_pos (show q.length ≥ 2 ^ k by omega)]
        exact ⟨by rw [h1], h2⟩
    | deq =>
      cases q with
      | nil =>
        have hdeq := ringInv_tryDequeue_empty hinv
        obtain ⟨h1, h2⟩ := ih _ _ hinv
        simp only [ringRun, hdeq, queueRun]
        exact ⟨by rw [h1], h2⟩
      | cons y q2 =>
        obtain ⟨hdeq, hinv2⟩ := ringInv_tryDequeue_ok hinv
        obtain ⟨h1, h2⟩ := ih _ _ hinv2
        simp only [ringRun, hdeq, queueRun]
        exact ⟨by rw [h1], h2⟩

theorem queueRun_deqValues_append {α : Type} (cap : Nat) (ops : List (RingOp α)) :
    ∀ q0 : List α,
      deqValues (queueRun cap q0 ops).2 ++ (queueRun cap q0 ops).1
        = q0 ++ enqValues ops (queueRun cap q0 ops).2 := by
  induction ops with
  | nil => intro q0; simp [queueRun, deqValues, enqValues]
  | cons op rest ih =>
    intro q0
    cases op with
    | enq x =>
      by_cases h : q0.length ≥ cap
      · simp only [queueRun, if_pos h, deqValues, enqValues]
        exact ih q0
      · simp only [queueRun, if_neg h, deqValues, enqValues]
        rw [ih (q0 ++ [x])]
        simp
    | deq =>
      cases q0 with
      | nil =>
        simp only [queueRun, deqValues, enqValues]
        exact ih []
      | cons y q2 =>
        simp only [queueRun, deqValues, enqValues, List.cons_append]
        rw [ih q2]

/-- C8: a single-producer ring of power-of-two capacity refines a bounded FIFO
queue: running any sequence of enqueue/dequeue calls against the ring from its
initial state produces exactly the outcomes of the abstract bounded queue, the
successfully dequeued items are precisely the accepted enqueued items in
submission order (a prefix of them), `tryEnqueue` fails exactly when the
`uint64` difference head − tail has reached the capacity, and `tryDequeue`
fails exactly when head = tail. -/
theorem ring_fifo_refinement {α : Type} [Inhabited α] (k : Nat) (hk : k ≤ 63)
    (ops : List (RingOp α)) :
    ((ringRun (RingBuffer.init α (2 ^ k) ProducerMode.Single) ops).2
      = (queueRun (2 ^ k) [] ops).2) ∧
    (deqValues (ringRun (RingBuffer.init α (2 ^ k) ProducerMode.Single) ops).2
      = (enqValues ops (ringRun (RingBuffer.init α (2 ^ k) ProducerMode.Single) ops).2).take
          (deqValues (ringRun (RingBuffer.init α (2 ^ k) ProducerMode.Single) ops).2).length) ∧
    (∀ (r : RingBuffer α) (x : α), r.mode = ProducerMode.Single →
      (r.tryEnqueue x = none ↔ (r.head + word64 - r.tail) % word64 ≥ r.capacity)) ∧
    (∀ r : RingBuffer α, r.tryDequeue = none ↔ r.head = r.tail) := by
  obtain ⟨houts, hinvf⟩ :=
    ringRun_refines_queueRun k ops (RingBuffer.init α (2 ^ k) ProducerMode.Single) []
      (ringInv_init k hk)
  refine ⟨houts, ?_, ?_, ?_⟩
  · rw [houts]
    have hpre := queueRun_deqValues_append (2 ^ k) ops []
    rw [List.nil_append] at hpre
    conv_lhs => rw [← List.take_left (deqValues (queueRun (2 ^ k) [] ops).2)
      (queueRun (2 ^ k) [] ops).1]
    rw [hpre]
  · intro r x hm
    by_cases h : (r.head + word64 - r.tail) % word64 ≥ r.capacity
    · simp [RingBuffer.tryEnqueue, hm, h]
    · simp [RingBuffer.tryEnqueue, hm, h]
  · intro r
    by_cases h : r.head = r.tail
    · simp [RingBuffer.tryDequeue, h]
    · simp [RingBuffer.tryDequeue, h]

theorem ring_fifo_refinement_witness :
    (ringRun (RingBuffer.init Nat (2 ^ 2) ProducerMode.Single)
        [RingOp.enq 10, RingOp.enq 20, RingOp.deq, RingOp.deq]).2
      = (queueRun (2 ^ 2) [] [RingOp.enq 10, RingOp.enq 20, RingOp.deq, RingOp.deq]).2 :=
  (ring_fifo_refinement 2 (by decide)
    [RingOp.enq 10, RingOp.enq 20, RingOp.deq, RingOp.deq]).1

end HftCore
